import Mathlib

/-!
# LZ77 (Favrito/LZ77, `main.c`): a shallow embedding

The C program keeps all of its state in fixed-size `unsigned char` arrays and a few
`int` variables, and talks to two `FILE*` streams.  The embedding is:

* a byte is a `Nat` (every byte the program stores comes from a file or from an
  `unsigned char` variable; an `int` that is written with `fputc` is reduced modulo 256,
  see `toByte`);
* a C array is a `List Nat`; `a[i]` is `a.getD i 0` and `a[i] = v` is `a.set i v`;
* the input file is the list of bytes not read yet, the output file is the list of
  bytes written so far;
* a `while (true)` loop is a step function on the record of the live variables, returning
  `Step.more` (next iteration) or `Step.done` (a `break`), iterated a given number of times;
* stack variables that C leaves uninitialised (`c`, `loadBuffer`, the decoder's `window`
  when the stream is shorter than the header) start from values that are parameters.

`int` variables are integers without overflow. `ftell`'s result is taken as the exact
length of the file (lengths below `2^31`); the other `int`s stay below 256 in every run in
which the loop of `compress` is left; where it is not left, the statements give the value
of `endOffset`, the one variable that grows.

A list has no undefined behaviour, a C array has: a subscript outside the array is
undefined in C, while `getD` reads 0 and `set` does nothing there. The decoder takes its
subscripts from the bytes of the stream and tests nothing; its definitions (`decCopy`,
`decStep`, `decompress`) are the C code only on streams whose Match records have
`length <= offset <= windowSize` and `length < windowSize` (`Record.inRange`), and the
statements about the output of the decoder are made for such streams. `decompressChecked`
is the decoder that yields no result on the others.
-/

namespace LZ77

/-- `#define windowSize 60` -/
def windowSize : Nat := 60

/-- `#define bufferSize 40` -/
def bufferSize : Nat := 40

/-- `#define arraySize bufferSize + windowSize` -/
def arraySize : Nat := bufferSize + windowSize

/-- Outcome of one pass through the body of a `while (true)` loop. -/
inductive Step (σ : Type) where
  | more : σ → Step σ
  | done : σ → Step σ
  deriving DecidableEq, Repr

/-- The value `fputc` writes for an `int` argument: its conversion to `unsigned char`. -/
def toByte (v : Int) : Nat := (v % 256).toNat

/-! ## findMatch -/

/-- The inner loop of `findMatch`,
`for (j = ...; j < strLen; j++) if (str[j] == window[k]) k++; else break;`
started with `n = strLen - j` passes left; the result is the value of `j` when the loop
is left. -/
def matchRun (window str : List Nat) : Nat → Nat → Nat → Nat
  | 0, _, j => j
  | n + 1, k, j =>
    if str.getD j 0 = window.getD k 0 then matchRun window str n (k + 1) (j + 1) else j

/-- The outer loop of `findMatch`, `for (int i = ...; i <= windowSize - strLen; i++)`, with
`n` passes left: `pos = k = i`, the inner loop, `if (j == strLen) return pos;`, and
`return -1` when the loop runs out. -/
def findMatchFrom (window str : List Nat) (strLen : Nat) : Nat → Nat → Int
  | 0, _ => -1
  | n + 1, i =>
    if matchRun window str strLen i 0 = strLen then (i : Int)
    else findMatchFrom window str strLen n (i + 1)

/-- `int findMatch(unsigned char window[], unsigned char str[], int strLen)`: the loop
variable runs over `0 .. windowSize - strLen`, that is `windowSize + 1 - strLen` passes
(none when `strLen > windowSize`). -/
def findMatch (window str : List Nat) (strLen : Nat) : Int :=
  findMatchFrom window str strLen (windowSize + 1 - strLen) 0

/-! ## compress -/

/-- The search of `compress`,
`for (i = size; i > 0; i--) { pos = findMatch(window, str, i); if (pos != -1) break; }`
after `pos = -1`: the pair `(pos, i)` when the loop is left (`i` is only read by the
program when `pos != -1`). -/
def searchLoop (window str : List Nat) : Nat → Int × Nat
  | 0 => (-1, 0)
  | i + 1 =>
    if findMatch window str (i + 1) ≠ -1 then (findMatch window str (i + 1), i + 1)
    else searchLoop window str i

/-- The in-place loop `for (int j = 0; j < n; j++) a[j] = a[j + shift];`. -/
def shiftLoop (shift : Nat) : Nat → List Nat → List Nat
  | 0, a => a
  | n + 1, a => (shiftLoop shift n a).set n ((shiftLoop shift n a).getD (n + shift) 0)

/-- The loop `for (k = 0; k < n; k++) dst[d + k] = src[s + k];` between two arrays. -/
def copyLoop (src : List Nat) (d s : Nat) : Nat → List Nat → List Nat
  | 0, dst => dst
  | n + 1, dst => (copyLoop src d s n dst).set (d + n) (src.getD (s + n) 0)

/-- The `n` bytes `a[start], ..., a[start + n - 1]` of an array: what
`fwrite(a + start, 1, n, file)` writes and what a loop `for (k < n) dst[k] = a[start + k]`
leaves in an `n`-byte array `dst`. -/
def slice (a : List Nat) (start n : Nat) : List Nat :=
  (List.range n).map (fun k => a.getD (start + k) 0)

/-- `fread(buf, 1, n, file)`: the bytes read overwrite the front of `buf`; the result is
the buffer, the number of bytes read and the rest of the file. -/
def fread (buf : List Nat) (n : Nat) (file : List Nat) : List Nat × Nat × List Nat :=
  (copyLoop file 0 0 (min n file.length) buf, min n file.length, file.drop n)

/-- The variables of `compress` that live across iterations of its loop, and the two
files. -/
structure EncState where
  /-- `unsigned char array[arraySize]` -/
  array : List Nat
  /-- `unsigned char loadBuffer[bufferSize]` -/
  loadBuffer : List Nat
  /-- `unsigned char c` -/
  c : Nat
  /-- `bool last` -/
  last : Bool
  /-- `int endOffset` (never negative) -/
  endOffset : Nat
  /-- the bytes of `fileInput` not read yet -/
  input : List Nat
  /-- the bytes written to `fileOutput` -/
  output : List Nat
  deriving DecidableEq, Repr

/-- Lines 165-191 of `main.c`: the tail of the loop body of `compress` once `shift` is
known (shift the array, refill it, update `endOffset`). -/
def encShift (s : EncState) (shift : Nat) : EncState :=
  -- for (int j = 0; j < arraySize - shift; j++) array[j] = array[j + shift];
  let array1 := shiftLoop shift (arraySize - shift) s.array
  -- if (!last) array[arraySize - shift] = c;
  let array2 := if !s.last then array1.set (arraySize - shift) s.c else array1
  -- if (shift == 1 && last) endOffset++;
  let endOffset1 := if shift = 1 ∧ s.last then s.endOffset + 1 else s.endOffset
  if shift ≠ 1 then
    -- bytesRead = fread(loadBuffer, 1, (size_t) shift - 1, fileInput);
    let r := fread s.loadBuffer (shift - 1) s.input
    -- for (int k = 0, l = arraySize - shift + 1; k < shift - 1; k++, l++)
    --     array[l] = loadBuffer[k];
    let array3 := copyLoop r.1 (arraySize - shift + 1) 0 (shift - 1) array2
    if s.last then
      -- endOffset += shift; continue;
      { s with array := array3, loadBuffer := r.1, input := r.2.2,
               endOffset := endOffset1 + shift }
    else if r.2.1 < shift - 1 then
      -- endOffset = shift - 1 - bytesRead;
      { s with array := array3, loadBuffer := r.1, input := r.2.2,
               endOffset := shift - 1 - r.2.1 }
    else
      { s with array := array3, loadBuffer := r.1, input := r.2.2,
               endOffset := endOffset1 }
  else
    { s with array := array2, endOffset := endOffset1 }

/-- Lines 102-105: `if ((c_in = fgetc(fileInput)) == EOF) last = true; else c = c_in;`. -/
def encFetch (s : EncState) : EncState :=
  match s.input with
  | [] => { s with last := true }
  | b :: rest => { s with c := b, input := rest }

/-- Lines 107-115: the window (dictionary) loaded from `array`. -/
def loadWindow (array : List Nat) : List Nat :=
  -- for (int k = 0; k < windowSize; k++) window[k] = array[k];
  slice array 0 windowSize

/-- Lines 107-115: the lookahead (`buffer` and `str` hold the same bytes) loaded from
`array`. -/
def loadLookahead (array : List Nat) : List Nat :=
  -- for (int k = windowSize, j = 0; k < arraySize; k++, j++) buffer[j] = str[j] = array[k];
  slice array windowSize bufferSize

/-- One pass through the body of the `while (true)` loop of `compress` (lines 101-192). -/
def encStep (s0 : EncState) : Step EncState :=
  let s := encFetch s0
  let window := loadWindow s.array
  let buffer := loadLookahead s.array
  -- if (endOffset != 0) { size = bufferSize - endOffset; if (endOffset == bufferSize) break; }
  -- else size = bufferSize;
  if s.endOffset ≠ 0 ∧ s.endOffset = bufferSize then .done s
  else
    let size : Int := if s.endOffset ≠ 0 then (bufferSize : Int) - s.endOffset else bufferSize
    let r := searchLoop window buffer size.toNat
    let pos := r.1
    let i := r.2
    if pos = -1 then
      -- fputc(255, fileOutput); fputc(buffer[0], fileOutput); shift = 1;
      .more (encShift { s with output := s.output ++ [toByte 255, buffer.getD 0 0] } 1)
    else
      -- fputc(windowSize - pos, fileOutput); fputc(i, fileOutput);
      let out := s.output ++ [toByte (windowSize - pos), toByte i]
      if i = bufferSize then
        -- shift = bufferSize + 1; if (!last) fputc(c, fileOutput); else endOffset = 1;
        if !s.last then
          .more (encShift { s with output := out ++ [s.c] } (bufferSize + 1))
        else
          .more (encShift { s with output := out, endOffset := 1 } (bufferSize + 1))
      else if i + s.endOffset ≠ bufferSize then
        -- fputc(buffer[i], fileOutput); shift = i + 1;
        .more (encShift { s with output := out ++ [buffer.getD i 0] } (i + 1))
      else
        -- break;
        .done { s with output := out }

/-- A `while (true)` loop with body `step` run for at most `n` passes: `Step.done` with the
variables at the `break`, or `Step.more` with the variables after `n` passes when no
`break` was reached. -/
def iter {σ : Type} (step : σ → Step σ) : Nat → σ → Step σ
  | 0, s => .more s
  | n + 1, s =>
    match step s with
    | .done s1 => .done s1
    | .more s1 => iter step n s1

/-- The loop of `compress` run for at most `n` passes. -/
def encIter (n : Nat) (s : EncState) : Step EncState := iter encStep n s

/-- The variables of `compress` when its loop is entered (lines 53-98), for a file of at
least `arraySize` bytes: `array` holds the first `arraySize` bytes and the first
`windowSize` of them have been written. `c0` and `lb0` are what the uninitialised `c` and
`loadBuffer` hold. -/
def encInit (c0 : Nat) (lb0 file : List Nat) : EncState :=
  -- fread(array, 1, arraySize, fileInput); fwrite(array, 1, windowSize, fileOutput);
  let r := fread (List.replicate arraySize 0) arraySize file
  { array := r.1, loadBuffer := lb0, c := c0, last := false, endOffset := 0,
    input := r.2.2, output := slice r.1 0 windowSize }

/-- `int compress(char* inputPath)` on an input file that could be opened, with the loop
cut after `fuel` passes: the return code and the bytes of the output file, or `none` when
the loop has not been left within `fuel` passes. -/
def compress (fuel : Nat) (c0 : Nat) (lb0 file : List Nat) : Option (Nat × List Nat) :=
  if file.length = 0 then some (3, [])
  else if file.length < arraySize then some (2, [])
  else
    match encIter fuel (encInit c0 lb0 file) with
    | .done s => some (1, s.output)
    | .more _ => none

/-! ## decompress -/

/-- The variables of `decompress` that live across iterations of its loop, and the two
files (`offset`, `match`, `shift` and `readBuffer` are set afresh in every pass). -/
structure DecState where
  /-- `unsigned char window[windowSize]` -/
  window : List Nat
  /-- `unsigned char writeBuffer[windowSize]` -/
  writeBuffer : List Nat
  /-- `unsigned char c` -/
  c : Nat
  /-- `bool done` -/
  done : Bool
  /-- the bytes of `fileInput` not read yet -/
  input : List Nat
  /-- the bytes written to `fileOutput` -/
  output : List Nat
  deriving DecidableEq, Repr

/-- Lines 260-274: the part of the loop body of `decompress` that follows the reading of a
record, with the values of `offset`, `match` and `shift` it was given.

The definition is the C code only for `match <= offset <= windowSize` and
`match < windowSize` (`Record.inRange`), on arrays of `windowSize` bytes. Outside that range
the C program indexes outside `window[]` or `writeBuffer[]` and its behaviour is undefined,
while the definition below still yields a value (the subtractions are cut at 0, `getD`
reads 0 and `set` does nothing past the end): that value means nothing. `decAccess` lists
the subscripts of a pass, `decDefined` tests them, and `decompressChecked` is the decoder
that yields no result once a subscript lies outside the arrays. -/
def decCopy (s : DecState) (offset mtch shift : Nat) : DecState :=
  -- for (int i = 0, j = windowSize - offset; i < match; i++, j++) writeBuffer[i] = window[j];
  let wb := copyLoop s.window 0 (windowSize - offset) mtch s.writeBuffer
  -- fwrite(writeBuffer, 1, (size_t) match, fileOutput);
  let out1 := s.output ++ slice wb 0 mtch
  -- if (!done) fputc(c, fileOutput);
  let out2 := if !s.done then out1 ++ [s.c] else out1
  -- for (int i = 0; i < windowSize - shift; i++) window[i] = window[i + shift];
  let w1 := shiftLoop shift (windowSize - shift) s.window
  -- for (int i = 0, j = windowSize - shift; i < match; i++, j++) window[j] = writeBuffer[i];
  let w2 := copyLoop wb (windowSize - shift) 0 mtch w1
  -- window[windowSize - 1] = c;
  let w3 := w2.set (windowSize - 1) s.c
  { s with window := w3, writeBuffer := wb, output := out2 }

/-- One pass through the body of the `while (true)` loop of `decompress` (lines 236-279):
`fread(readBuffer, 1, 2, fileInput)` and, when two bytes were read, the record they
start. -/
def decStep (s : DecState) : Step DecState :=
  match s.input with
  | b0 :: b1 :: rest =>
    if b0 = 255 then
      -- offset = 0; c = (unsigned char) match; match = 0; shift = match + 1;
      .more (decCopy { s with c := b1, input := rest } 0 0 1)
    else
      -- shift = match + 1; c_in = fgetc(fileInput);
      -- if (c_in == EOF) done = true; else c = (unsigned char) c_in;
      match rest with
      | [] => .more (decCopy { s with done := true, input := [] } b0 b1 (b1 + 1))
      | b2 :: rest1 => .more (decCopy { s with c := b2, input := rest1 } b0 b1 (b1 + 1))
  | _ =>
    -- bytesRead < 2: break (a single remaining byte has been read)
    .done { s with input := [] }

/-- The variables of `decompress` when its loop is entered (lines 216-233): the header is
read into `window` and written out. `c0`, `w0` and `wb0` are what the uninitialised `c`,
`window` and `writeBuffer` hold. -/
def decInit (c0 : Nat) (w0 wb0 stream : List Nat) : DecState :=
  -- fread(window, 1, windowSize, fileInput); fwrite(window, 1, windowSize, fileOutput);
  let r := fread w0 windowSize stream
  { window := r.1, writeBuffer := wb0, c := c0, done := false,
    input := r.2.2, output := slice r.1 0 windowSize }

/-- `int decompress()` on a compressed file that could be opened: the return code and the
bytes of the output file. Every pass of the loop that does not leave it reads at least two
bytes, so `stream.length + 1` passes are enough (`decompress_total`); `none` stands for a
loop that is not left within them. -/
def decompress (c0 : Nat) (w0 wb0 stream : List Nat) : Option (Nat × List Nat) :=
  match iter decStep (stream.length + 1) (decInit c0 w0 wb0 stream) with
  | .done s => some (1, s.output)
  | .more _ => none

/-! ## Notions used by the statements -/

/-- The bytes `str[0..n)` stand in the window at position `p`: the span fits
(`p + n <= windowSize`) and `window[p + k] = str[k]` for every `k < n`. -/
def occursAt (window str : List Nat) (n p : Nat) : Prop :=
  p + n ≤ windowSize ∧ ∀ k, k < n → window.getD (p + k) 0 = str.getD k 0

/-- The same in terms of lists: the `n` bytes of the window from position `p` on are there
(`p + n <= windowSize`) and are the first `n` bytes of `str`. -/
def standsAt (window str : List Nat) (n p : Nat) : Prop :=
  p + n ≤ windowSize ∧ (window.drop p).take n = str.take n

/-- The variables a pass through a loop body ends with, whether it left the loop or not. -/
def Step.state {σ : Type} : Step σ → σ
  | .more s => s
  | .done s => s

/-- The bytes the pass of the loop of `compress` that starts with variables `s` appends to
the output file. -/
def encWritten (s : EncState) : List Nat :=
  (encStep s).state.output.drop s.output.length

/-- The chunks of bytes written by the first `n` passes of the loop of `compress` started
with variables `s`, one chunk per pass, in order (fewer than `n` chunks when the loop is
left earlier). -/
def encTrace : Nat → EncState → List (List Nat)
  | 0, _ => []
  | n + 1, s =>
    encWritten s ::
      (match encStep s with
       | .done _ => []
       | .more s1 => encTrace n s1)

/-- A Literal record on the wire: the sentinel `0xFF` and the raw byte. -/
def isLiteral (w : List Nat) : Prop := ∃ b, w = [255, b]

/-- A Match record on the wire with the given offset and length bytes (the offset byte is
not the sentinel), without or with its trailing literal byte. -/
def isMatch (w : List Nat) (off len : Nat) : Prop :=
  off ≠ 255 ∧ (w = [off, len] ∨ ∃ c, w = [off, len, c])

/-- A record of the compressed stream: a Literal, or a Match with its offset and length
bytes and, when it is there, its trailing literal byte. -/
inductive Record where
  | literal (b : Nat)
  | copy (offset length : Nat) (lit : Option Nat)
  deriving DecidableEq, Repr

/-- The bytes of a record on the wire. -/
def Record.bytes : Record → List Nat
  | .literal b => [255, b]
  | .copy o l (some c) => [o, l, c]
  | .copy o l none => [o, l]

/-- A record with all its bytes: a Literal, or a Match (first byte other than the sentinel
`0xFF`) that has its trailing literal. -/
def Record.complete : Record → Prop
  | .literal _ => True
  | .copy o _ lit => o ≠ 255 ∧ lit ≠ none

/-- The bytes of a sequence of records on the wire. -/
def wire (rs : List Record) : List Nat := (rs.map Record.bytes).flatten

/-- Two sets of decoder variables that differ at most in the bytes still to read. -/
def sameVars (s t : DecState) : Prop :=
  s.window = t.window ∧ s.writeBuffer = t.writeBuffer ∧ s.c = t.c ∧ s.done = t.done ∧
    s.output = t.output

/-- The number of input bytes a chunk written by one pass of the encoder stands for: 1 for a
Literal record, `length` for a Match record without trailing literal, `length + 1` for one
with it, 0 for no record. -/
def covered : List Nat → Nat
  | [255, _] => 1
  | [_, len] => len
  | [_, len, _] => len + 1
  | _ => 0

/-- The number of input bytes a sequence of chunks stands for. -/
def coveredAll (ws : List (List Nat)) : Nat := (ws.map covered).sum

/-- The encoder variables at the head of the loop are in step with the input `x` at
position `p`: the first `arraySize - endOffset` bytes of `array` are `x[p ..]`, the file
position is `p + arraySize`, and `endOffset` counts the slots of `array` beyond the end of
`x` (it is positive, or `last` is set, only when the array reaches the end of `x`). -/
def Good (x : List Nat) (p : Nat) (s : EncState) : Prop :=
  s.array.length = arraySize ∧ s.loadBuffer.length = bufferSize ∧
  s.endOffset ≤ bufferSize ∧
  p + arraySize ≤ x.length + s.endOffset ∧
  (∀ k, k + s.endOffset < arraySize → s.array.getD k 0 = x.getD (p + k) 0) ∧
  s.input = x.drop (p + arraySize) ∧
  (0 < s.endOffset → p + arraySize = x.length + s.endOffset) ∧
  (s.last = true → p + arraySize = x.length + s.endOffset)

/-- The most recent `windowSize` bytes of an output. -/
def lastWindow (out : List Nat) : List Nat := out.drop (out.length - windowSize)

/-- A record whose fields keep the decoder inside its arrays: a Literal, or a Match with
`length <= offset <= windowSize` and `length < windowSize`. -/
def Record.inRange : Record → Prop
  | .literal _ => True
  | .copy o l _ => l ≤ o ∧ o ≤ windowSize ∧ l < windowSize

/-- A record as the wire format has it: a Literal, or a Match with
`1 <= length <= offset <= windowSize` and `length <= bufferSize`. -/
def Record.wellFormed : Record → Prop
  | .literal _ => True
  | .copy o l _ => 1 ≤ l ∧ l ≤ o ∧ o ≤ windowSize ∧ l ≤ bufferSize

/-- The `len` bytes that begin `off` bytes before the end of `out`. -/
def copied (out : List Nat) (off len : Nat) : List Nat :=
  (out.drop (out.length - off)).take len

/-- The reference expansion of one record onto the output so far: a Literal appends its
byte; a Match appends the `length` bytes that begin `offset` bytes before the current end
of the output and then its literal byte when it has one. -/
def expandRecord (out : List Nat) : Record → List Nat
  | .literal b => out ++ [b]
  | .copy o l lit => out ++ copied out o l ++ lit.toList

/-- The reference expansion of a sequence of records, record after record, starting from
the output so far (the header). -/
def referenceExpand (out : List Nat) (rs : List Record) : List Nat :=
  rs.foldl expandRecord out

/-- The decoder variables at the head of the loop while records are being replayed: the
arrays have their declared sizes, `done` is not set, and `window` holds the most recent
`windowSize` bytes of the output. -/
def DecInv (s : DecState) : Prop :=
  s.window.length = windowSize ∧ s.writeBuffer.length = windowSize ∧ s.done = false ∧
    windowSize ≤ s.output.length ∧ s.window = lastWindow s.output

/-- A record that has its literal byte: a Literal, or a Match with its trailing literal. -/
def Record.hasLiteral : Record → Prop
  | .literal _ => True
  | .copy _ _ lit => lit ≠ none

/-- The subscripts with which lines 260-274 of `decompress` index `window[]`, computed in
`int` as the program does, for the values of `offset`, `match` and `shift` of one pass. -/
def decWindowIndices (offset mtch shift : Nat) : List Int :=
  -- line 262: window[j] with j = windowSize - offset + i, i < match
  (List.range mtch).map (fun (i : Nat) => (windowSize : Int) - (offset : Int) + (i : Int)) ++
  -- line 270: window[i] = window[i + shift], i < windowSize - shift
  ((List.range ((windowSize : Int) - (shift : Int)).toNat).map
    (fun (i : Nat) => [(i : Int), (i : Int) + (shift : Int)])).flatten ++
  -- line 273: window[j] with j = windowSize - shift + i, i < match
  (List.range mtch).map (fun (i : Nat) => (windowSize : Int) - (shift : Int) + (i : Int)) ++
  -- line 274: window[windowSize - 1]
  [(windowSize : Int) - 1]

/-- The subscripts with which lines 260-274 of `decompress` index `writeBuffer[]`
(`writeBuffer[i]` for `i < match` in lines 262 and 273, and the `match` bytes that `fwrite`
reads in line 263). -/
def decWriteBufferIndices (mtch : Nat) : List Int :=
  (List.range mtch).map (fun (i : Nat) => (i : Int))

/-- The subscripts of `window[]` and of `writeBuffer[]` used by the pass of the loop of
`decompress` that starts with variables `s`: those of lines 260-274 for the `offset`,
`match` and `shift` that `decStep` sets, none when the loop is left. -/
def decAccess (s : DecState) : List Int × List Int :=
  match s.input with
  | b0 :: b1 :: _ =>
    if b0 = 255 then (decWindowIndices 0 0 1, decWriteBufferIndices 0)
    else (decWindowIndices b0 b1 (b1 + 1), decWriteBufferIndices b1)
  | _ => ([], [])

/-- The search of one pass of `compress` read off the input `x` alone: the window is
`x[p .. p + windowSize)`, the lookahead starts at `x[p + windowSize]`, and the effective
size is `bufferSize` cut to the bytes of `x` that are left. -/
def inputSearch (x : List Nat) (p : Nat) : Int × Nat :=
  searchLoop (slice x p windowSize) (slice x (p + windowSize) bufferSize)
    (min bufferSize (x.length - (p + windowSize)))

/-- An input of `windowSize + bufferSize + 1` bytes: `0, ..., 59`, then `0, 200`, then
`2, ..., 40`. -/
def endOfStreamInput : List Nat :=
  List.range 60 ++ [0, 200] ++ (List.range 39).map (fun k => k + 2)

/-! ## Arrays: the loops as list operations -/

theorem length_slice (a : List Nat) (start n : Nat) : (slice a start n).length = n := by
  simp [slice]

theorem getElem?_slice (a : List Nat) (start n k : Nat) :
    (slice a start n)[k]? = if k < n then some (a.getD (start + k) 0) else none := by
  unfold slice
  by_cases h : k < n
  · simp [h, List.getElem?_range h]
  · simp [h, List.getElem?_eq_none (l := List.range n) (by simpa using h)]

theorem getD_slice (a : List Nat) (start n k : Nat) (h : k < n) :
    (slice a start n).getD k 0 = a.getD (start + k) 0 := by
  simp [List.getD_eq_getElem?_getD, getElem?_slice, h]

theorem slice_eq_take_drop (a : List Nat) (start n : Nat) (h : start + n ≤ a.length) :
    slice a start n = (a.drop start).take n := by
  apply List.ext_getElem?
  intro k
  rw [getElem?_slice, List.getElem?_take, List.getElem?_drop]
  by_cases hk : k < n
  · have : start + k < a.length := by omega
    simp [hk, List.getD_eq_getElem?_getD, List.getElem?_eq_getElem this]
  · simp [hk]

theorem length_copyLoop (src : List Nat) (d s n : Nat) (dst : List Nat) :
    (copyLoop src d s n dst).length = dst.length := by
  induction n with
  | zero => rfl
  | succ n ih => simp [copyLoop, ih]

theorem getElem?_copyLoop (src : List Nat) (d s n : Nat) (dst : List Nat) (i : Nat) :
    (copyLoop src d s n dst)[i]? =
      if d ≤ i ∧ i < d + n ∧ i < dst.length then some (src.getD (s + (i - d)) 0)
      else dst[i]? := by
  induction n with
  | zero =>
    have : ¬ (d ≤ i ∧ i < d + 0 ∧ i < dst.length) := by omega
    rw [if_neg this]; rfl
  | succ n ih =>
    simp only [copyLoop, List.getElem?_set, length_copyLoop, ih]
    by_cases h1 : d + n = i
    · subst h1
      by_cases h2 : d + n < dst.length
      · simp [h2]
      · simp [h2, List.getElem?_eq_none (l := dst) (n := d + n) (by omega)]
    · simp only [h1, if_false]
      by_cases h3 : d ≤ i ∧ i < d + n ∧ i < dst.length
      · have : d ≤ i ∧ i < d + (n + 1) ∧ i < dst.length := by omega
        simp [h3, this]
      · have : ¬ (d ≤ i ∧ i < d + (n + 1) ∧ i < dst.length) := by omega
        simp [h3, this]

theorem copyLoop_eq (src : List Nat) (d s n : Nat) (dst : List Nat)
    (h : d + n ≤ dst.length) :
    copyLoop src d s n dst = dst.take d ++ slice src s n ++ dst.drop (d + n) := by
  apply List.ext_getElem?
  intro i
  rw [getElem?_copyLoop]
  simp only [List.getElem?_append, List.length_append, List.length_take, length_slice,
    getElem?_slice, List.getElem?_take, List.getElem?_drop]
  have hd : min d dst.length = d := by omega
  rw [hd]
  by_cases h1 : i < d
  · have : ¬ (d ≤ i ∧ i < d + n ∧ i < dst.length) := by omega
    have h2 : i < d + n := by omega
    simp [h1, this, h2]
  · by_cases h2 : i < d + n
    · have : d ≤ i ∧ i < d + n ∧ i < dst.length := by omega
      have h3 : i - d < n := by omega
      simp [h1, h2, this, h3]
    · have : ¬ (d ≤ i ∧ i < d + n ∧ i < dst.length) := by omega
      have h3 : d + n + (i - (d + n)) = i := by omega
      simp [h1, h2, this, h3]

theorem length_shiftLoop (shift n : Nat) (a : List Nat) :
    (shiftLoop shift n a).length = a.length := by
  induction n with
  | zero => rfl
  | succ n ih => simp [shiftLoop, ih]

theorem getElem?_shiftLoop (shift n : Nat) (a : List Nat) (i : Nat) :
    (shiftLoop shift n a)[i]? =
      if i < n ∧ i < a.length then some (a.getD (i + shift) 0) else a[i]? := by
  induction n generalizing i with
  | zero => simp [shiftLoop]
  | succ n ih =>
    simp only [shiftLoop, List.getElem?_set, length_shiftLoop, List.getD_eq_getElem?_getD]
    by_cases h1 : n = i
    · subst h1
      have h4 : ¬ (n + shift < n ∧ n + shift < a.length) := by omega
      by_cases h2 : n < a.length
      · simp [h2, ih, h4]
      · simp [h2, List.getElem?_eq_none (l := a) (n := n) (by omega)]
    · simp only [h1, if_false, ih]
      by_cases h3 : i < n ∧ i < a.length
      · have : i < n + 1 ∧ i < a.length := by omega
        simp [h3, this, List.getD_eq_getElem?_getD]
      · have : ¬ (i < n + 1 ∧ i < a.length) := by omega
        simp [h3, this]

theorem shiftLoop_eq (shift n : Nat) (a : List Nat) (h : n + shift ≤ a.length) :
    shiftLoop shift n a = slice a shift n ++ a.drop n := by
  apply List.ext_getElem?
  intro i
  rw [getElem?_shiftLoop]
  simp only [List.getElem?_append, length_slice, getElem?_slice, List.getElem?_drop]
  by_cases h1 : i < n
  · have : i < n ∧ i < a.length := by omega
    simp [h1, this, Nat.add_comm]
  · have : ¬ (i < n ∧ i < a.length) := by omega
    have h3 : n + (i - n) = i := by omega
    simp [h1, this, h3]

/-! ## findMatch and the search of `compress` -/

theorem matchRun_eq_iff (window str : List Nat) (n k j : Nat) :
    matchRun window str n k j = j + n ↔
      ∀ t, t < n → str.getD (j + t) 0 = window.getD (k + t) 0 := by
  induction n generalizing k j with
  | zero => simp [matchRun]
  | succ n ih =>
    have hge : ∀ m k j, j ≤ matchRun window str m k j := by
      intro m
      induction m with
      | zero => intro k j; simp [matchRun]
      | succ m ihm =>
        intro k j
        simp only [matchRun]
        split
        · exact Nat.le_trans (Nat.le_succ j) (ihm (k + 1) (j + 1))
        · exact Nat.le_refl j
    simp only [matchRun]
    by_cases h : str.getD j 0 = window.getD k 0
    · rw [if_pos h]
      have e : j + (n + 1) = j + 1 + n := by omega
      rw [e, ih]
      constructor
      · intro H t ht
        cases t with
        | zero => simpa using h
        | succ t =>
          have := H t (by omega)
          have e1 : j + (t + 1) = j + 1 + t := by omega
          have e2 : k + (t + 1) = k + 1 + t := by omega
          rw [e1, e2]; exact this
      · intro H t ht
        have := H (t + 1) (by omega)
        have e1 : j + (t + 1) = j + 1 + t := by omega
        have e2 : k + (t + 1) = k + 1 + t := by omega
        rw [← e1, ← e2]; exact this
    · rw [if_neg h]
      constructor
      · intro H; omega
      · intro H
        exact absurd (by simpa using H 0 (by omega)) h

theorem matchRun_full_iff (window str : List Nat) (n p : Nat) :
    matchRun window str n p 0 = n ↔ ∀ k, k < n → window.getD (p + k) 0 = str.getD k 0 := by
  have := matchRun_eq_iff window str n p 0
  simp only [Nat.zero_add] at this
  rw [this]
  constructor
  · intro H k hk; exact (H k hk).symm
  · intro H k hk; exact (H k hk).symm

theorem findMatchFrom_eq_neg_one_iff (window str : List Nat) (strLen n i : Nat) :
    findMatchFrom window str strLen n i = -1 ↔
      ∀ p, i ≤ p → p < i + n → matchRun window str strLen p 0 ≠ strLen := by
  induction n generalizing i with
  | zero => simp [findMatchFrom]; intro p h1 h2; omega
  | succ n ih =>
    simp only [findMatchFrom]
    by_cases h : matchRun window str strLen i 0 = strLen
    · rw [if_pos h]
      constructor
      · intro H; omega
      · intro H; exact absurd h (H i (Nat.le_refl i) (by omega))
    · rw [if_neg h, ih]
      constructor
      · intro H p h1 h2
        by_cases e : p = i
        · subst e; exact h
        · exact H p (by omega) (by omega)
      · intro H p h1 h2
        exact H p (by omega) (by omega)

theorem findMatchFrom_eq_pos_iff (window str : List Nat) (strLen n i p : Nat) :
    findMatchFrom window str strLen n i = (p : Int) ↔
      i ≤ p ∧ p < i + n ∧ matchRun window str strLen p 0 = strLen ∧
        ∀ q, i ≤ q → q < p → matchRun window str strLen q 0 ≠ strLen := by
  induction n generalizing i with
  | zero =>
    simp only [findMatchFrom]
    constructor
    · intro H; omega
    · intro H; omega
  | succ n ih =>
    simp only [findMatchFrom]
    by_cases h : matchRun window str strLen i 0 = strLen
    · rw [if_pos h]
      constructor
      · intro H
        have e : i = p := by omega
        subst e
        exact ⟨Nat.le_refl _, by omega, h, fun q h1 h2 => by omega⟩
      · rintro ⟨h1, _, _, h4⟩
        by_cases e : i = p
        · subst e; rfl
        · exact absurd h (h4 i (Nat.le_refl i) (by omega))
    · rw [if_neg h, ih]
      constructor
      · rintro ⟨h1, h2, h3, h4⟩
        refine ⟨by omega, by omega, h3, ?_⟩
        intro q hq1 hq2
        by_cases e : q = i
        · subst e; exact h
        · exact h4 q (by omega) hq2
      · rintro ⟨h1, h2, h3, h4⟩
        have e : i ≠ p := by
          intro e; subst e; exact h h3
        exact ⟨by omega, by omega, h3, fun q hq1 hq2 => h4 q (by omega) hq2⟩

theorem findMatch_eq_neg_one_iff (window str : List Nat) (strLen : Nat) :
    findMatch window str strLen = -1 ↔ ∀ p, ¬ occursAt window str strLen p := by
  unfold findMatch occursAt
  rw [findMatchFrom_eq_neg_one_iff]
  constructor
  · intro H p ⟨h1, h2⟩
    exact H p (Nat.zero_le p) (by unfold windowSize at *; omega)
      ((matchRun_full_iff window str strLen p).2 h2)
  · intro H p _ h2 h3
    exact H p ⟨by unfold windowSize at *; omega, (matchRun_full_iff window str strLen p).1 h3⟩

theorem findMatch_eq_pos_iff (window str : List Nat) (strLen p : Nat) :
    findMatch window str strLen = (p : Int) ↔
      occursAt window str strLen p ∧ ∀ q, q < p → ¬ occursAt window str strLen q := by
  unfold findMatch occursAt
  rw [findMatchFrom_eq_pos_iff]
  constructor
  · rintro ⟨_, h2, h3, h4⟩
    refine ⟨⟨by unfold windowSize at *; omega, (matchRun_full_iff window str strLen p).1 h3⟩, ?_⟩
    rintro q hq ⟨_, h6⟩
    exact h4 q (Nat.zero_le q) hq ((matchRun_full_iff window str strLen q).2 h6)
  · rintro ⟨⟨h1, h2⟩, h3⟩
    refine ⟨Nat.zero_le p, by unfold windowSize at *; omega,
      (matchRun_full_iff window str strLen p).2 h2, ?_⟩
    intro q _ hq h6
    exact h3 q hq ⟨by omega, (matchRun_full_iff window str strLen q).1 h6⟩

theorem findMatch_cases (window str : List Nat) (strLen : Nat) :
    findMatch window str strLen = -1 ∨
      ∃ p : Nat, findMatch window str strLen = (p : Int) := by
  have key : ∀ n i, findMatchFrom window str strLen n i = -1 ∨
      ∃ p : Nat, findMatchFrom window str strLen n i = (p : Int) := by
    intro n
    induction n with
    | zero => intro i; left; rfl
    | succ n ih =>
      intro i
      simp only [findMatchFrom]
      split
      · right; exact ⟨i, rfl⟩
      · exact ih (i + 1)
  exact key _ _

theorem occursAt_shorter (window str : List Nat) (n m p : Nat) (h : m ≤ n)
    (ho : occursAt window str n p) : occursAt window str m p :=
  ⟨by have := ho.1; omega, fun k hk => ho.2 k (by omega)⟩

theorem searchLoop_eq_neg_one_iff (window str : List Nat) (s : Nat) :
    (searchLoop window str s).1 = -1 ↔
      ∀ m, 1 ≤ m → m ≤ s → ∀ p, ¬ occursAt window str m p := by
  induction s with
  | zero =>
    simp only [searchLoop]
    constructor
    · intro _ m h1 h2; omega
    · intro _; trivial
  | succ s ih =>
    simp only [searchLoop]
    by_cases h : findMatch window str (s + 1) = -1
    · rw [if_neg (by simpa using h), ih]
      constructor
      · intro H m h1 h2
        by_cases e : m = s + 1
        · subst e; exact (findMatch_eq_neg_one_iff _ _ _).1 h
        · exact H m h1 (by omega)
      · intro H m h1 h2
        exact H m h1 (by omega)
    · rw [if_pos h]
      constructor
      · intro H; exact absurd H h
      · intro H
        exact absurd ((findMatch_eq_neg_one_iff _ _ _).2 (H (s + 1) (by omega) (Nat.le_refl _))) h

theorem searchLoop_eq_pos_iff (window str : List Nat) (s p n : Nat) :
    searchLoop window str s = ((p : Int), n) ↔
      1 ≤ n ∧ n ≤ s ∧ occursAt window str n p ∧
        (∀ q, q < p → ¬ occursAt window str n q) ∧
        ∀ m, n < m → m ≤ s → ∀ q, ¬ occursAt window str m q := by
  induction s with
  | zero =>
    simp only [searchLoop]
    constructor
    · intro H
      have := congrArg Prod.fst H
      simp at this
    · rintro ⟨h1, h2, _⟩; omega
  | succ s ih =>
    simp only [searchLoop]
    by_cases h : findMatch window str (s + 1) = -1
    · rw [if_neg (by simpa using h), ih]
      constructor
      · rintro ⟨h1, h2, h3, h4, h5⟩
        refine ⟨h1, by omega, h3, h4, ?_⟩
        intro m hm1 hm2
        by_cases e : m = s + 1
        · subst e; exact (findMatch_eq_neg_one_iff _ _ _).1 h
        · exact h5 m hm1 (by omega)
      · rintro ⟨h1, h2, h3, h4, h5⟩
        have e : n ≠ s + 1 := by
          intro e; subst e
          exact (findMatch_eq_neg_one_iff _ _ _).1 h p h3
        exact ⟨h1, by omega, h3, h4, fun m hm1 hm2 => h5 m hm1 (by omega)⟩
    · rw [if_pos h]
      constructor
      · intro H
        have e1 : findMatch window str (s + 1) = (p : Int) := congrArg Prod.fst H
        have e2 : s + 1 = n := congrArg Prod.snd H
        subst e2
        have := (findMatch_eq_pos_iff _ _ _ _).1 e1
        exact ⟨by omega, Nat.le_refl _, this.1, this.2, fun m hm1 hm2 => by omega⟩
      · rintro ⟨h1, h2, h3, h4, h5⟩
        have e : n = s + 1 := by
          by_contra e
          rcases findMatch_cases window str (s + 1) with h6 | ⟨q, h6⟩
          · exact h h6
          · exact h5 (s + 1) (by omega) (Nat.le_refl _) q
              ((findMatch_eq_pos_iff _ _ _ _).1 h6).1
        subst e
        have := (findMatch_eq_pos_iff window str (s + 1) p).2 ⟨h3, h4⟩
        rw [this]

theorem searchLoop_cases (window str : List Nat) (s : Nat) :
    searchLoop window str s = (-1, 0) ∨
      ∃ p n : Nat, searchLoop window str s = ((p : Int), n) := by
  induction s with
  | zero => left; rfl
  | succ s ih =>
    simp only [searchLoop]
    by_cases h : findMatch window str (s + 1) = -1
    · rw [if_neg (by simpa using h)]; exact ih
    · rw [if_pos h]
      rcases findMatch_cases window str (s + 1) with h6 | ⟨q, h6⟩
      · exact absurd h6 h
      · right; exact ⟨q, s + 1, by rw [h6]⟩


/-! ## One pass of the loop of `compress` -/

theorem toByte_ofNat (n : Nat) (h : n < 256) : toByte (n : Int) = n := by
  unfold toByte; omega

theorem toByte_offset (p : Nat) : toByte ((windowSize : Int) - (p : Int)) = windowSize - p ∨ windowSize < p := by
  unfold toByte windowSize; omega

@[simp] theorem encShift_output (s : EncState) (shift : Nat) :
    (encShift s shift).output = s.output := by
  unfold encShift; dsimp only; split_ifs <;> rfl

@[simp] theorem encShift_last (s : EncState) (shift : Nat) :
    (encShift s shift).last = s.last := by
  unfold encShift; dsimp only; split_ifs <;> rfl

@[simp] theorem encShift_c (s : EncState) (shift : Nat) :
    (encShift s shift).c = s.c := by
  unfold encShift; dsimp only; split_ifs <;> rfl

@[simp] theorem encFetch_output (s : EncState) : (encFetch s).output = s.output := by
  unfold encFetch; split <;> rfl

@[simp] theorem encFetch_array (s : EncState) : (encFetch s).array = s.array := by
  unfold encFetch; split <;> rfl

@[simp] theorem encFetch_endOffset (s : EncState) : (encFetch s).endOffset = s.endOffset := by
  unfold encFetch; split <;> rfl

@[simp] theorem encFetch_loadBuffer (s : EncState) :
    (encFetch s).loadBuffer = s.loadBuffer := by
  unfold encFetch; split <;> rfl

/-- The pass of the loop of `compress` by cases: what it writes and how it goes on. -/
theorem encStep_cases (s0 : EncState) :
    (encFetch s0).endOffset = bufferSize ∧ encStep s0 = .done (encFetch s0) ∨
    ((encFetch s0).endOffset ≠ bufferSize ∧
      (searchLoop (loadWindow s0.array) (loadLookahead s0.array)
        (bufferSize - s0.endOffset)).1 = -1 ∧
      encStep s0 = .more (encShift { encFetch s0 with
        output := s0.output ++ [255, (loadLookahead s0.array).getD 0 0] } 1)) ∨
    ∃ p i : Nat, (encFetch s0).endOffset ≠ bufferSize ∧
      searchLoop (loadWindow s0.array) (loadLookahead s0.array)
        (bufferSize - s0.endOffset) = ((p : Int), i) ∧
      (i = bufferSize ∧ (encFetch s0).last = false ∧
        encStep s0 = .more (encShift { encFetch s0 with
          output := s0.output ++ [windowSize - p, i, (encFetch s0).c] } (bufferSize + 1)) ∨
       i = bufferSize ∧ (encFetch s0).last = true ∧
        encStep s0 = .more (encShift { encFetch s0 with
          output := s0.output ++ [windowSize - p, i], endOffset := 1 } (bufferSize + 1)) ∨
       i ≠ bufferSize ∧ i + s0.endOffset ≠ bufferSize ∧
        encStep s0 = .more (encShift { encFetch s0 with
          output := s0.output ++ [windowSize - p, i, (loadLookahead s0.array).getD i 0] }
          (i + 1)) ∨
       i ≠ bufferSize ∧ i + s0.endOffset = bufferSize ∧
        encStep s0 = .done { encFetch s0 with output := s0.output ++ [windowSize - p, i] }) := by
  have hsize : (if (encFetch s0).endOffset ≠ 0 then (bufferSize : Int) - (encFetch s0).endOffset
      else (bufferSize : Int)).toNat = bufferSize - s0.endOffset := by
    rw [encFetch_endOffset]
    split <;> omega
  unfold encStep
  simp only [hsize, encFetch_array, encFetch_output]
  by_cases hE : (encFetch s0).endOffset = bufferSize
  · left
    refine ⟨hE, ?_⟩
    have : (encFetch s0).endOffset ≠ 0 ∧ (encFetch s0).endOffset = bufferSize :=
      ⟨by rw [hE]; decide, hE⟩
    rw [if_pos this]
  · right
    have hE2 : ¬ ((encFetch s0).endOffset ≠ 0 ∧ (encFetch s0).endOffset = bufferSize) :=
      fun h => hE h.2
    rw [if_neg hE2]
    rcases searchLoop_cases (loadWindow s0.array) (loadLookahead s0.array)
      (bufferSize - s0.endOffset) with h | ⟨p, i, h⟩
    · left
      refine ⟨hE, by rw [h], ?_⟩
      rw [h]
      simp [toByte]
    · right
      refine ⟨p, i, hE, h, ?_⟩
      have hb := (searchLoop_eq_pos_iff _ _ _ _ _).1 h
      have hp : p ≤ windowSize := by have := hb.2.2.1.1; omega
      have hi : i ≤ bufferSize := by have := hb.2.1; omega
      have hne : ¬ ((p : Int) = -1) := by omega
      have t1 : toByte ((windowSize : Int) - (p : Int)) = windowSize - p := by
        rcases toByte_offset p with h | h
        · exact h
        · omega
      have t2 : toByte (i : Int) = i := toByte_ofNat i (by unfold bufferSize at hi; omega)
      rw [h]
      simp only [hne, if_false, t1, t2]
      rw [encFetch_endOffset] at *
      by_cases h40 : i = bufferSize
      · cases hl : (encFetch s0).last
        · left; refine ⟨h40, rfl, ?_⟩
          simp [h40, hl]
        · right; left; refine ⟨h40, rfl, ?_⟩
          simp [h40, hl]
      · by_cases hx : i + s0.endOffset = bufferSize
        · right; right; right
          refine ⟨h40, hx, ?_⟩
          simp [h40, hx]
        · right; right; left
          refine ⟨h40, hx, ?_⟩
          simp [h40, hx]




/-! ## Rejection of short inputs (C3) -/

/-- C3. An input shorter than `windowSize + bufferSize` bytes is rejected whatever the
number of passes allowed: `compress` returns 3 (empty input) when the length is 0 and
2 (input too small) otherwise, and the output file holds no byte. -/
theorem compress_rejects_short_input (fuel c0 : Nat) (lb0 x : List Nat)
    (h : x.length < windowSize + bufferSize) :
    compress fuel c0 lb0 x = some (if x.length = 0 then 3 else 2, []) := by
  unfold compress
  by_cases h0 : x.length = 0
  · simp [h0]
  · have : x.length < arraySize := by unfold arraySize; omega
    simp [h0, this]

theorem compress_rejects_short_input_witness :
    compress 5 0 [] [1, 2, 3] = some (if [1, 2, 3].length = 0 then 3 else 2, []) ∧
    compress 5 0 [] [] = some (if ([] : List Nat).length = 0 then 3 else 2, []) :=
  ⟨compress_rejects_short_input 5 0 [] [1, 2, 3] (by decide),
   compress_rejects_short_input 5 0 [] [] (by decide)⟩

/-! ## The records written by the encoder (C4) -/

theorem fread_fst_eq (buf file : List Nat) (n : Nat) (hb : n ≤ buf.length) :
    (fread buf n file).1 = file.take n ++ buf.drop (min n file.length) := by
  unfold fread
  simp only
  rw [copyLoop_eq _ _ _ _ _ (by omega)]
  simp only [List.take_zero, List.nil_append, Nat.zero_add]
  rw [slice_eq_take_drop _ _ _ (by omega)]
  simp only [List.drop_zero]
  congr 1
  apply List.ext_getElem?
  intro k
  simp only [List.getElem?_take]
  by_cases hk : k < file.length
  · have : (k < min n file.length) ↔ k < n := by omega
    simp [this]
  · have e : file[k]? = none := List.getElem?_eq_none (by omega)
    simp [e]

theorem encInit_array (c0 : Nat) (lb0 x : List Nat) (hx : arraySize ≤ x.length) :
    (encInit c0 lb0 x).array = x.take arraySize := by
  unfold encInit
  simp only
  rw [fread_fst_eq _ _ _ (by simp)]
  simp [Nat.min_eq_left hx]

theorem encInit_output (c0 : Nat) (lb0 x : List Nat) (hx : arraySize ≤ x.length) :
    (encInit c0 lb0 x).output = x.take windowSize := by
  have h := encInit_array c0 lb0 x hx
  unfold encInit at h ⊢
  simp only at h ⊢
  rw [h, slice_eq_take_drop _ _ _ (by simp [arraySize, windowSize] at *; omega)]
  simp [List.take_take, arraySize, windowSize, bufferSize]

@[simp] theorem encInit_input (c0 : Nat) (lb0 x : List Nat) :
    (encInit c0 lb0 x).input = x.drop arraySize := rfl

@[simp] theorem encInit_last (c0 : Nat) (lb0 x : List Nat) :
    (encInit c0 lb0 x).last = false := rfl

@[simp] theorem encInit_endOffset (c0 : Nat) (lb0 x : List Nat) :
    (encInit c0 lb0 x).endOffset = 0 := rfl

@[simp] theorem encInit_loadBuffer (c0 : Nat) (lb0 x : List Nat) :
    (encInit c0 lb0 x).loadBuffer = lb0 := rfl

/-- What a pass writes, by the cases of `encStep_cases`. -/
theorem encWritten_cases (s0 : EncState) :
    (encStep s0).state.output = s0.output ++ encWritten s0 ∧
    (encWritten s0 = [] ∨ isLiteral (encWritten s0) ∨
      ∃ off len, isMatch (encWritten s0) off len ∧
        1 ≤ off ∧ off ≤ windowSize ∧ 1 ≤ len ∧ len ≤ bufferSize ∧ len ≤ off) := by
  have key : ∀ w, (encStep s0).state.output = s0.output ++ w → encWritten s0 = w := by
    intro w hw
    unfold encWritten
    rw [hw]
    simp
  rcases encStep_cases s0 with ⟨_, h⟩ | ⟨_, _, h⟩ | ⟨p, i, _, hs, h⟩
  · have e : (encStep s0).state.output = s0.output ++ [] := by
      rw [h]; simp [Step.state]
    have := key _ e
    rw [this]
    exact ⟨e, Or.inl rfl⟩
  · have e : (encStep s0).state.output =
        s0.output ++ [255, (loadLookahead s0.array).getD 0 0] := by
      rw [h]; simp [Step.state]
    have := key _ e
    rw [this]
    exact ⟨e, Or.inr (Or.inl ⟨_, rfl⟩)⟩
  · have hb := (searchLoop_eq_pos_iff _ _ _ _ _).1 hs
    have hp := hb.2.2.1.1
    have b1 : 1 ≤ windowSize - p := by omega
    have b2 : windowSize - p ≤ windowSize := by omega
    have b3 : i ≤ bufferSize := by omega
    have b4 : i ≤ windowSize - p := by omega
    have b5 : windowSize - p ≠ 255 := by unfold windowSize; omega
    rcases h with ⟨_, _, h⟩ | ⟨_, _, h⟩ | ⟨_, _, h⟩ | ⟨_, _, h⟩
    · have e : (encStep s0).state.output =
          s0.output ++ [windowSize - p, i, (encFetch s0).c] := by
        rw [h]; simp [Step.state]
      have := key _ e
      rw [this]
      exact ⟨e, Or.inr (Or.inr ⟨_, _, ⟨b5, Or.inr ⟨_, rfl⟩⟩, b1, b2, hb.1, b3, b4⟩)⟩
    · have e : (encStep s0).state.output = s0.output ++ [windowSize - p, i] := by
        rw [h]; simp [Step.state]
      have := key _ e
      rw [this]
      exact ⟨e, Or.inr (Or.inr ⟨_, _, ⟨b5, Or.inl rfl⟩, b1, b2, hb.1, b3, b4⟩)⟩
    · have e : (encStep s0).state.output =
          s0.output ++ [windowSize - p, i, (loadLookahead s0.array).getD i 0] := by
        rw [h]; simp [Step.state]
      have := key _ e
      rw [this]
      exact ⟨e, Or.inr (Or.inr ⟨_, _, ⟨b5, Or.inr ⟨_, rfl⟩⟩, b1, b2, hb.1, b3, b4⟩)⟩
    · have e : (encStep s0).state.output = s0.output ++ [windowSize - p, i] := by
        rw [h]; simp [Step.state]
      have := key _ e
      rw [this]
      exact ⟨e, Or.inr (Or.inr ⟨_, _, ⟨b5, Or.inl rfl⟩, b1, b2, hb.1, b3, b4⟩)⟩

theorem iter_succ {σ : Type} (step : σ → Step σ) (n : Nat) (s : σ) :
    iter step (n + 1) s =
      match step s with
      | .done s1 => .done s1
      | .more s1 => iter step n s1 := rfl

/-- The output after `n` passes is the output before them followed by the chunks of the
trace. -/
theorem encIter_output (n : Nat) (s : EncState) :
    (encIter n s).state.output = s.output ++ (encTrace n s).flatten := by
  induction n generalizing s with
  | zero => simp [encIter, iter, encTrace, Step.state]
  | succ n ih =>
    have hw := (encWritten_cases s).1
    unfold encIter at ih ⊢
    rw [iter_succ]
    simp only [encTrace]
    cases h : encStep s with
    | done s1 =>
      rw [h] at hw
      simp only [Step.state] at hw
      simp [Step.state, hw]
    | more s1 =>
      rw [h] at hw
      simp only [Step.state] at hw
      simp only [ih s1, hw, List.flatten_cons, List.append_assoc]

theorem encTrace_valid (n : Nat) (s : EncState) :
    ∀ w ∈ encTrace n s, w = [] ∨ isLiteral w ∨
      ∃ off len, isMatch w off len ∧
        1 ≤ off ∧ off ≤ windowSize ∧ 1 ≤ len ∧ len ≤ bufferSize ∧ len ≤ off := by
  induction n generalizing s with
  | zero => intro w hw; simp [encTrace] at hw
  | succ n ih =>
    intro w hw
    simp only [encTrace, List.mem_cons] at hw
    rcases hw with hw | hw
    · rw [hw]; exact (encWritten_cases s).2
    · cases h : encStep s with
      | done s1 => rw [h] at hw; simp at hw
      | more s1 => rw [h] at hw; exact ih s1 w hw

/-- C4. After any number `n` of passes of the encoder loop on an input of at least
`windowSize + bufferSize` bytes, the output file is the `windowSize` header bytes followed
by the chunks written pass by pass, and every chunk is nothing (the pass that leaves the
loop at `endOffset == bufferSize`), a Literal record whose first byte is `0xFF`, or a Match
record with `1 <= offset <= windowSize` and `1 <= length <= bufferSize` (so its first byte
is neither 0 nor `0xFF`). -/
theorem encoder_records_within_bounds (x : List Nat) (c0 : Nat) (lb0 : List Nat) (n : Nat)
    (hx : windowSize + bufferSize ≤ x.length) :
    (encIter n (encInit c0 lb0 x)).state.output =
        x.take windowSize ++ (encTrace n (encInit c0 lb0 x)).flatten ∧
    ∀ w ∈ encTrace n (encInit c0 lb0 x), w = [] ∨ isLiteral w ∨
      ∃ off len, isMatch w off len ∧
        1 ≤ off ∧ off ≤ windowSize ∧ 1 ≤ len ∧ len ≤ bufferSize := by
  have hx1 : arraySize ≤ x.length := by unfold arraySize; omega
  refine ⟨?_, ?_⟩
  · rw [encIter_output, encInit_output c0 lb0 x hx1]
  · intro w hw
    rcases encTrace_valid n _ w hw with h | h | ⟨off, len, h1, h2, h3, h4, h5, _⟩
    · exact Or.inl h
    · exact Or.inr (Or.inl h)
    · exact Or.inr (Or.inr ⟨off, len, h1, h2, h3, h4, h5⟩)



theorem encoder_records_within_bounds_witness :
    (encIter 3 (encInit 0 [] (List.range 100))).state.output =
        (List.range 100).take windowSize ++
          (encTrace 3 (encInit 0 [] (List.range 100))).flatten ∧
    ∀ w ∈ encTrace 3 (encInit 0 [] (List.range 100)), w = [] ∨ isLiteral w ∨
      ∃ off len, isMatch w off len ∧
        1 ≤ off ∧ off ≤ windowSize ∧ 1 ≤ len ∧ len ≤ bufferSize :=
  encoder_records_within_bounds (List.range 100) 0 [] 3 (by simp [windowSize, bufferSize])


/-! ## The matcher (C5, C6) -/

theorem occursAt_iff_standsAt (window str : List Nat) (n p : Nat)
    (hw : window.length = windowSize) (hs : n ≤ str.length) :
    occursAt window str n p ↔ standsAt window str n p := by
  unfold occursAt standsAt
  constructor
  · rintro ⟨h1, h2⟩
    refine ⟨h1, ?_⟩
    apply List.ext_getElem?
    intro k
    simp only [List.getElem?_take, List.getElem?_drop]
    by_cases hk : k < n
    · have := h2 k hk
      have a : p + k < window.length := by omega
      have b : k < str.length := by omega
      simp only [List.getD_eq_getElem?_getD, List.getElem?_eq_getElem a,
        List.getElem?_eq_getElem b, Option.getD_some] at this
      simp [hk, List.getElem?_eq_getElem a, List.getElem?_eq_getElem b, this]
    · simp [hk]
  · rintro ⟨h1, h2⟩
    refine ⟨h1, ?_⟩
    intro k hk
    have := congrArg (fun l => l[k]?) h2
    simp only [List.getElem?_take, List.getElem?_drop, hk, if_true] at this
    simp [List.getD_eq_getElem?_getD, this]

/-- C5. For a window of `windowSize` bytes and a `str` holding at least `strLen` bytes (in
particular for the `bufferSize`-byte `str` of `compress` and `1 <= strLen <= bufferSize`),
`findMatch` returns the least position `p` with
`p + strLen <= windowSize` and `window[p + k] = str[k]` for all `k < strLen` (the bytes
`window[p .. p + strLen)` are `str[0 .. strLen)`); it returns
`-1` exactly when there is no such position; and it returns nothing else. -/
theorem findMatch_least_position (window str : List Nat) (strLen : Nat)
    (hw : window.length = windowSize) (hs : strLen ≤ str.length) :
    (∀ p : Nat, findMatch window str strLen = (p : Int) ↔
      (standsAt window str strLen p ∧ ∀ q, q < p → ¬ standsAt window str strLen q)) ∧
    (findMatch window str strLen = -1 ↔ ¬ ∃ p, standsAt window str strLen p) ∧
    (findMatch window str strLen = -1 ∨
      ∃ p : Nat, findMatch window str strLen = (p : Int)) := by
  have e : ∀ p, occursAt window str strLen p ↔ standsAt window str strLen p :=
    fun p => occursAt_iff_standsAt window str strLen p hw hs
  refine ⟨fun p => ?_, ?_, findMatch_cases _ _ _⟩
  · rw [findMatch_eq_pos_iff]
    simp only [e]
  · rw [findMatch_eq_neg_one_iff, not_exists]
    simp only [e]

theorem findMatch_least_position_witness :
    (∀ p : Nat, findMatch (List.replicate 60 7) (List.replicate 40 7) 40 = (p : Int) ↔
      (standsAt (List.replicate 60 7) (List.replicate 40 7) 40 p ∧
        ∀ q, q < p → ¬ standsAt (List.replicate 60 7) (List.replicate 40 7) 40 q)) ∧
    (findMatch (List.replicate 60 7) (List.replicate 40 7) 40 = -1 ↔
      ¬ ∃ p, standsAt (List.replicate 60 7) (List.replicate 40 7) 40 p) ∧
    (findMatch (List.replicate 60 7) (List.replicate 40 7) 40 = -1 ∨
      ∃ p : Nat, findMatch (List.replicate 60 7) (List.replicate 40 7) 40 = (p : Int)) :=
  findMatch_least_position (List.replicate 60 7) (List.replicate 40 7) 40
    (by simp [windowSize]) (by simp)

/-- C6. For a window of `windowSize` bytes and an effective size `s >= 1` within the bytes
of `str` (in particular `1 <= s <= bufferSize` for the `bufferSize`-byte `str` of
`compress`), the descending search of `compress` returns position `p` and length `n` exactly when `n` is
the greatest length in `[1, s]` for which `str[0..n)` stands somewhere inside the window
and `p` is the leftmost position where it does (the offset `windowSize - p` is then the
largest one for that length); it reports no match (`pos = -1`) exactly when `str[0]` is
not a byte of the window; and it returns nothing else. -/
theorem searchLoop_longest_leftmost (window str : List Nat) (s : Nat)
    (hw : window.length = windowSize) (hs : s ≤ str.length) (h1 : 1 ≤ s) :
    (∀ p n : Nat, searchLoop window str s = ((p : Int), n) ↔
      (1 ≤ n ∧ n ≤ s ∧ standsAt window str n p ∧
        (∀ q, q < p → ¬ standsAt window str n q) ∧
        (∀ q, windowSize - p < windowSize - q → ¬ standsAt window str n q) ∧
        ∀ m, n < m → m ≤ s → ¬ ∃ q, standsAt window str m q)) ∧
    ((searchLoop window str s).1 = -1 ↔ ∀ b, str.head? = some b → b ∉ window) ∧
    ((searchLoop window str s).1 = -1 ∨
      ∃ p n : Nat, searchLoop window str s = ((p : Int), n)) := by
  have e : ∀ n p, n ≤ s → (occursAt window str n p ↔ standsAt window str n p) :=
    fun n p hn => occursAt_iff_standsAt window str n p hw (by omega)
  refine ⟨?_, ?_, ?_⟩
  · intro p n
    rw [searchLoop_eq_pos_iff]
    constructor
    · rintro ⟨a, b, c, d, f⟩
      refine ⟨a, b, (e n p b).1 c, fun q hq hq2 => d q hq ((e n q b).2 hq2), ?_, ?_⟩
      · intro q hq hq2; exact d q (by omega) ((e n q b).2 hq2)
      · rintro m hm1 hm2 ⟨q, hq⟩; exact f m hm1 hm2 q ((e m q hm2).2 hq)
    · rintro ⟨a, b, c, d, _, f⟩
      exact ⟨a, b, (e n p b).2 c, fun q hq hq2 => d q hq ((e n q b).1 hq2),
        fun m hm1 hm2 q hq => f m hm1 hm2 ⟨q, (e m q hm2).1 hq⟩⟩
  · rw [searchLoop_eq_neg_one_iff]
    have hne : 0 < str.length := by omega
    have hhead : str.head? = some (str.getD 0 0) := by
      cases str with
      | nil => simp at hne
      | cons a t => simp
    constructor
    · intro H b hb hmem
      rw [hhead] at hb
      obtain ⟨p, hp, hpe⟩ := List.getElem_of_mem hmem
      refine H 1 (Nat.le_refl 1) h1 p ⟨by omega, ?_⟩
      intro k hk
      have : k = 0 := by omega
      subst this
      have hb2 : str.getD 0 0 = b := by simpa using hb
      simp only [Nat.add_zero, hb2, List.getD_eq_getElem?_getD, List.getElem?_eq_getElem hp,
        Option.getD_some, hpe]
    · rintro H m hm1 _ p ⟨hp, ho⟩
      have h0 := ho 0 (by omega)
      have hp2 : p < window.length := by omega
      refine H (str.getD 0 0) hhead ?_
      rw [← h0]
      simp only [Nat.add_zero, List.getD_eq_getElem?_getD, List.getElem?_eq_getElem hp2,
        Option.getD_some]
      exact List.getElem_mem hp2
  · rcases searchLoop_cases window str s with h | h
    · left; rw [h]
    · right; exact h

theorem searchLoop_longest_leftmost_witness :
    (∀ p n : Nat, searchLoop (List.range 60) (List.range 40) 40 = ((p : Int), n) ↔
      (1 ≤ n ∧ n ≤ 40 ∧ standsAt (List.range 60) (List.range 40) n p ∧
        (∀ q, q < p → ¬ standsAt (List.range 60) (List.range 40) n q) ∧
        (∀ q, windowSize - p < windowSize - q →
          ¬ standsAt (List.range 60) (List.range 40) n q) ∧
        ∀ m, n < m → m ≤ 40 → ¬ ∃ q, standsAt (List.range 60) (List.range 40) m q)) ∧
    ((searchLoop (List.range 60) (List.range 40) 40).1 = -1 ↔
      ∀ b, (List.range 40).head? = some b → b ∉ List.range 60) ∧
    ((searchLoop (List.range 60) (List.range 40) 40).1 = -1 ∨
      ∃ p n : Nat, searchLoop (List.range 60) (List.range 40) 40 = ((p : Int), n)) :=
  searchLoop_longest_leftmost (List.range 60) (List.range 40) 40
    (by simp [windowSize]) (by simp) (by decide)




/-! ## The encoder on a constant input: the loop is never left (C1, C2, C7) -/

theorem encShift_endOffset_last (s : EncState) (shift : Nat) (hl : s.last = true) :
    (encShift s shift).endOffset = s.endOffset + shift := by
  unfold encShift
  dsimp only
  split_ifs <;> simp_all

theorem encFetch_last_of_last (s : EncState) (hl : s.last = true) :
    (encFetch s).last = true := by
  unfold encFetch; split <;> simp [hl]

theorem encFetch_last_of_nil (s : EncState) (hi : s.input = []) :
    (encFetch s).last = true := by
  unfold encFetch; rw [hi]

/-- Once `last` is set and `endOffset` is beyond `bufferSize`, a pass writes a Literal
record and leaves the variables in the same situation. -/
theorem encStep_stuck (s : EncState) (hl : s.last = true) (he : bufferSize < s.endOffset) :
    ∃ s1, encStep s = .more s1 ∧ s1.last = true ∧ bufferSize < s1.endOffset ∧
      s1.output = s.output ++ [255, (loadLookahead s.array).getD 0 0] ∧
      s1.endOffset = s.endOffset + 1 := by
  rcases encStep_cases s with ⟨h, _⟩ | ⟨_, _, h⟩ | ⟨p, i, _, hs, _⟩
  · rw [encFetch_endOffset] at h; omega
  · refine ⟨_, h, ?_, ?_, ?_, ?_⟩
    · simp [encFetch_last_of_last s hl]
    · rw [encShift_endOffset_last _ _ (by simp [encFetch_last_of_last s hl])]
      simp only [encFetch_endOffset]
      omega
    · simp
    · rw [encShift_endOffset_last _ _ (by simp [encFetch_last_of_last s hl])]
      simp only [encFetch_endOffset]
  · have hb := (searchLoop_eq_pos_iff _ _ _ _ _).1 hs
    omega

theorem encIter_stuck (n : Nat) (s : EncState) (hl : s.last = true)
    (he : bufferSize < s.endOffset) :
    ∃ s1, encIter n s = .more s1 ∧ s1.last = true ∧ bufferSize < s1.endOffset ∧
      s1.output.take s.output.length = s.output ∧
      s1.output.length = s.output.length + 2 * n ∧
      s1.endOffset = s.endOffset + n := by
  induction n generalizing s with
  | zero => exact ⟨s, rfl, hl, he, by simp, by simp, by simp⟩
  | succ n ih =>
    obtain ⟨s1, h1, h2, h3, h4, h5⟩ := encStep_stuck s hl he
    obtain ⟨s2, g1, g2, g3, g4, g5, g6⟩ := ih s1 h2 h3
    refine ⟨s2, ?_, g2, g3, ?_, ?_, by rw [g6, h5]; omega⟩
    · unfold encIter at g1 ⊢
      rw [iter_succ, h1]
      exact g1
    · have := congrArg (List.take s.output.length) g4
      rw [List.take_take] at this
      rw [h4] at this
      simpa using this
    · rw [g5, h4]; simp; omega

theorem getD_replicate_lt (n k v : Nat) (h : k < n) : (List.replicate n v).getD k 0 = v := by
  simp [List.getD_eq_getElem?_getD, List.getElem?_replicate, h]

/-- The first pass on `windowSize + bufferSize` equal bytes: a Match record with offset
`windowSize` and length `bufferSize`, no trailing literal, and `endOffset` becomes
`1 + (bufferSize + 1)`. -/
theorem encStep_constant (v c0 : Nat) (lb0 : List Nat) :
    ∃ s1, encStep (encInit c0 lb0 (List.replicate (windowSize + bufferSize) v)) = .more s1 ∧
      s1.last = true ∧ s1.endOffset = bufferSize + 2 ∧
      s1.output = List.replicate windowSize v ++ [windowSize, bufferSize] := by
  have hx : arraySize ≤ (List.replicate (windowSize + bufferSize) v).length := by
    simp [arraySize]; omega
  have harr := encInit_array c0 lb0 _ hx
  have hout := encInit_output c0 lb0 _ hx
  have harr2 : (encInit c0 lb0 (List.replicate (windowSize + bufferSize) v)).array =
      List.replicate arraySize v := by
    rw [harr]; simp [arraySize, windowSize, bufferSize]
  have hlast : (encFetch (encInit c0 lb0 (List.replicate (windowSize + bufferSize) v))).last
      = true := by
    apply encFetch_last_of_nil
    simp [arraySize, windowSize, bufferSize]
  have hsearch : searchLoop (loadWindow (List.replicate arraySize v))
      (loadLookahead (List.replicate arraySize v)) bufferSize = (((0 : Nat) : Int), bufferSize) := by
    rw [searchLoop_eq_pos_iff]
    refine ⟨by decide, Nat.le_refl _, ⟨by decide, ?_⟩, fun q hq => by omega,
      fun m h1 h2 => by omega⟩
    intro k hk
    unfold loadWindow loadLookahead
    have hk2 : k < bufferSize := hk
    unfold bufferSize at hk2
    rw [getD_slice _ _ _ _ (by unfold windowSize; omega), getD_slice _ _ _ _ hk,
      getD_replicate_lt _ _ _ (by unfold arraySize bufferSize windowSize; omega),
      getD_replicate_lt _ _ _ (by unfold arraySize bufferSize windowSize; omega)]
  rcases encStep_cases (encInit c0 lb0 (List.replicate (windowSize + bufferSize) v))
    with ⟨h, _⟩ | ⟨_, h, _⟩ | ⟨p, i, _, hs, h⟩
  · simp [bufferSize] at h
  · rw [harr2] at h
    simp only [encInit_endOffset, Nat.sub_zero] at h
    rw [hsearch] at h
    simp at h
  · rw [harr2] at hs
    simp only [encInit_endOffset, Nat.sub_zero] at hs
    rw [hsearch] at hs
    have hp : p = 0 := by
      have := congrArg Prod.fst hs
      simp at this
      omega
    have hi : i = bufferSize := (congrArg Prod.snd hs).symm
    subst hp hi
    rcases h with ⟨_, h, _⟩ | ⟨_, _, h⟩ | ⟨h, _⟩ | ⟨h, _⟩
    · rw [hlast] at h; simp at h
    · refine ⟨_, h, ?_, ?_, ?_⟩
      · simp [hlast]
      · rw [encShift_endOffset_last _ _ (by simp [hlast])]
        simp; omega
      · simp [hout]
    · exact absurd rfl h
    · exact absurd rfl h

/-- On `windowSize + bufferSize` equal bytes no number of passes leaves the loop; after
`n + 1` passes the output is the header, the Match record `[windowSize, bufferSize]` and
`2 * n` further bytes. -/
theorem encIter_constant (v c0 : Nat) (lb0 : List Nat) (n : Nat) :
    ∃ s, encIter (n + 1) (encInit c0 lb0 (List.replicate (windowSize + bufferSize) v))
        = .more s ∧
      s.output.take (windowSize + 2) = List.replicate windowSize v ++ [windowSize, bufferSize] ∧
      s.output.length = windowSize + 2 + 2 * n ∧
      s.last = true ∧ s.endOffset = bufferSize + 2 + n := by
  obtain ⟨s1, h1, h2, h3, h4⟩ := encStep_constant v c0 lb0
  obtain ⟨s2, g1, g2, _, g4, g5, g6⟩ := encIter_stuck n s1 h2 (by omega)
  refine ⟨s2, ?_, ?_, ?_, g2, by rw [g6, h3]⟩
  · unfold encIter at g1 ⊢
    rw [iter_succ, h1]
    exact g1
  · rw [h4] at g4
    simpa using g4
  · rw [g5, h4]; simp

theorem encIter_constant_more (v c0 : Nat) (lb0 : List Nat) (n : Nat) :
    ∃ s, encIter n (encInit c0 lb0 (List.replicate (windowSize + bufferSize) v)) = .more s := by
  cases n with
  | zero => exact ⟨_, rfl⟩
  | succ n =>
    obtain ⟨s, h, _⟩ := encIter_constant v c0 lb0 n
    exact ⟨s, h⟩

theorem compress_constant_none (fuel v c0 : Nat) (lb0 : List Nat) :
    compress fuel c0 lb0 (List.replicate (windowSize + bufferSize) v) = none := by
  obtain ⟨s, h⟩ := encIter_constant_more v c0 lb0 fuel
  unfold compress
  have h0 : ¬ (List.replicate (windowSize + bufferSize) v).length = 0 := by
    simp [windowSize, bufferSize]
  have h1 : ¬ (List.replicate (windowSize + bufferSize) v).length < arraySize := by
    simp [windowSize, bufferSize, arraySize]
  rw [if_neg h0, if_neg h1, h]




/-! ## The array after the shift phase -/

theorem getD_loadWindow (a : List Nat) (k : Nat) (h : k < windowSize) :
    (loadWindow a).getD k 0 = a.getD k 0 := by
  unfold loadWindow
  rw [getD_slice _ _ _ _ h, Nat.zero_add]

theorem getD_loadLookahead (a : List Nat) (k : Nat) (h : k < bufferSize) :
    (loadLookahead a).getD k 0 = a.getD (windowSize + k) 0 := by
  unfold loadLookahead
  rw [getD_slice _ _ _ _ h]

theorem length_loadWindow (a : List Nat) : (loadWindow a).length = windowSize :=
  length_slice _ _ _

theorem length_loadLookahead (a : List Nat) : (loadLookahead a).length = bufferSize :=
  length_slice _ _ _

theorem fread_getD (buf file : List Nat) (n k : Nat) :
    (fread buf n file).1.getD k 0 =
      if k < min n file.length ∧ k < buf.length then file.getD k 0 else buf.getD k 0 := by
  unfold fread
  simp only [List.getD_eq_getElem?_getD, getElem?_copyLoop]
  by_cases h : k < min n file.length ∧ k < buf.length
  · have : 0 ≤ k ∧ k < 0 + min n file.length ∧ k < buf.length := by omega
    rw [if_pos this, if_pos h]
    simp
  · have : ¬ (0 ≤ k ∧ k < 0 + min n file.length ∧ k < buf.length) := by omega
    rw [if_neg this, if_neg h]

theorem fread_length (buf file : List Nat) (n : Nat) :
    (fread buf n file).1.length = buf.length := by
  unfold fread; simp [length_copyLoop]

theorem encShift_array_length (s : EncState) (shift : Nat) :
    (encShift s shift).array.length = s.array.length := by
  unfold encShift
  dsimp only
  split_ifs <;> simp [length_copyLoop, length_shiftLoop]

theorem encShift_array_eq (s : EncState) (shift : Nat) :
    (encShift s shift).array =
      copyLoop (fread s.loadBuffer (shift - 1) s.input).1 (arraySize - shift + 1) 0 (shift - 1)
        (if (!s.last) = true then
          (shiftLoop shift (arraySize - shift) s.array).set (arraySize - shift) s.c
        else shiftLoop shift (arraySize - shift) s.array) := by
  unfold encShift
  dsimp only
  by_cases hs : shift = 1
  · subst hs
    simp only [ne_eq, not_true_eq_false, if_false]
    rfl
  · rw [if_pos hs]
    split_ifs <;> rfl

theorem encShift_array_getD (s : EncState) (shift j : Nat)
    (hlen : s.array.length = arraySize) (h1 : 1 ≤ shift) (h2 : shift ≤ arraySize) :
    (encShift s shift).array.getD j 0 =
      if j < arraySize - shift then s.array.getD (j + shift) 0
      else if j = arraySize - shift then (if s.last then s.array.getD j 0 else s.c)
      else if j < arraySize then
        (fread s.loadBuffer (shift - 1) s.input).1.getD (j - (arraySize - shift + 1)) 0
      else 0 := by
  rw [encShift_array_eq]
  simp only [List.getD_eq_getElem?_getD]
  have hnone : ∀ i, arraySize ≤ i → s.array[i]? = none :=
    fun i hi => List.getElem?_eq_none (by omega)
  have ha1 : ∀ i, (shiftLoop shift (arraySize - shift) s.array)[i]? =
      if i < arraySize - shift then some (s.array[i + shift]?.getD 0) else s.array[i]? := by
    intro i
    rw [getElem?_shiftLoop]
    by_cases hi : i < arraySize - shift
    · have : i < arraySize - shift ∧ i < s.array.length := by omega
      rw [if_pos this, if_pos hi, List.getD_eq_getElem?_getD]
    · have : ¬ (i < arraySize - shift ∧ i < s.array.length) := by omega
      rw [if_neg this, if_neg hi]
  have hl2 : (if (!s.last) = true then
      (shiftLoop shift (arraySize - shift) s.array).set (arraySize - shift) s.c
    else shiftLoop shift (arraySize - shift) s.array).length = arraySize := by
    split <;> simp [length_shiftLoop, hlen]
  rw [getElem?_copyLoop, hl2]
  by_cases hj : arraySize - shift + 1 ≤ j ∧ j < arraySize - shift + 1 + (shift - 1) ∧
      j < arraySize
  · rw [if_pos hj]
    have h3 : ¬ j < arraySize - shift := by omega
    have h4 : ¬ j = arraySize - shift := by omega
    have h5 : j < arraySize := by omega
    rw [if_neg h3, if_neg h4, if_pos h5]
    simp [List.getD_eq_getElem?_getD]
  · rw [if_neg hj]
    by_cases h3 : j < arraySize - shift
    · rw [if_pos h3]
      cases hl : s.last
      · simp only [Bool.not_false, if_true, List.getElem?_set, length_shiftLoop]
        have : ¬ arraySize - shift = j := by omega
        rw [if_neg this, ha1, if_pos h3]; rfl
      · simp only [Bool.not_true, Bool.false_eq_true, if_false]
        rw [ha1, if_pos h3]; rfl
    · rw [if_neg h3]
      by_cases h4 : j = arraySize - shift
      · rw [if_pos h4]
        cases hl : s.last
        · simp only [Bool.not_false, if_true, List.getElem?_set, length_shiftLoop]
          have h6 : arraySize - shift < s.array.length := by omega
          rw [if_pos h4.symm, if_pos h6]
          simp
        · simp only [Bool.not_true, Bool.false_eq_true, if_false]
          rw [ha1, if_neg h3]
          simp
      · rw [if_neg h4]
        have h5 : ¬ j < arraySize := by omega
        rw [if_neg h5]
        cases hl : s.last
        · simp only [Bool.not_false, if_true, List.getElem?_set, length_shiftLoop]
          have : ¬ arraySize - shift = j := by omega
          rw [if_neg this, ha1, if_neg h3, hnone j (by omega)]; rfl
        · simp only [Bool.not_true, Bool.false_eq_true, if_false]
          rw [ha1, if_neg h3, hnone j (by omega)]; rfl




/-! ## An input of exactly `windowSize + bufferSize` pairwise distinct bytes (C8) -/

theorem encShift_input_one (s : EncState) : (encShift s 1).input = s.input := by
  unfold encShift; simp

theorem iter_done_add {σ : Type} (step : σ → Step σ) (n m : Nat) (s s1 : σ)
    (h : iter step n s = .done s1) : iter step (n + m) s = .done s1 := by
  induction n generalizing s with
  | zero => simp [iter] at h
  | succ n ih =>
    have e : n + 1 + m = (n + m) + 1 := by omega
    rw [e, iter_succ]
    rw [iter_succ] at h
    cases hs : step s with
    | done s2 => rw [hs] at h; exact h
    | more s2 => rw [hs] at h; exact ih s2 h

theorem iter_more_add {σ : Type} (step : σ → Step σ) (n m : Nat) (s s1 : σ)
    (h : iter step n s = .more s1) : iter step (n + m) s = iter step m s1 := by
  induction n generalizing s with
  | zero =>
    simp only [iter, Step.more.injEq] at h
    subst h
    simp
  | succ n ih =>
    have e : n + 1 + m = (n + m) + 1 := by omega
    rw [e, iter_succ]
    rw [iter_succ] at h
    cases hs : step s with
    | done s2 => rw [hs] at h; simp at h
    | more s2 => rw [hs] at h; exact ih s2 h

theorem getD_inj_of_nodup (x : List Nat) (hn : x.Nodup) (i j : Nat) (hi : i < x.length)
    (hj : j < x.length) (h : x.getD i 0 = x.getD j 0) : i = j := by
  simp only [List.getD_eq_getElem?_getD, List.getElem?_eq_getElem hi,
    List.getElem?_eq_getElem hj, Option.getD_some] at h
  exact (hn.getElem_inj_iff).1 h

/-- The variables of the encoder after `k` passes on the distinct-bytes input `x`. -/
theorem encStep_distinct (x : List Nat) (hlen : x.length = windowSize + bufferSize)
    (hn : x.Nodup) (k : Nat) (hk : k < bufferSize) (s : EncState)
    (h1 : s.array.length = arraySize)
    (h2 : ∀ j, j + k < arraySize → s.array.getD j 0 = x.getD (j + k) 0)
    (h3 : s.input = []) (h4 : s.endOffset = k) :
    ∃ s1, encStep s = .more s1 ∧ s1.array.length = arraySize ∧
      (∀ j, j + (k + 1) < arraySize → s1.array.getD j 0 = x.getD (j + (k + 1)) 0) ∧
      s1.input = [] ∧ s1.endOffset = k + 1 ∧
      s1.output = s.output ++ [255, x.getD (windowSize + k) 0] := by
  have hlast := encFetch_last_of_nil s h3
  have hfi : (encFetch s).input = [] := by
    unfold encFetch; rw [h3]
  have hb0 : (loadLookahead s.array).getD 0 0 = x.getD (windowSize + k) 0 := by
    rw [getD_loadLookahead _ _ (by decide), h2 _ (by unfold arraySize bufferSize at *; omega)]
    rfl
  rcases encStep_cases s with ⟨h, _⟩ | ⟨_, _, h⟩ | ⟨p, i, _, hs, _⟩
  · rw [encFetch_endOffset] at h; omega
  · refine ⟨_, h, ?_, ?_, ?_, ?_, ?_⟩
    · rw [encShift_array_length]; simpa using h1
    · intro j hj
      rw [encShift_array_getD _ _ _ (by simpa using h1) (Nat.le_refl 1)
        (by unfold arraySize bufferSize; omega)]
      have : j < arraySize - 1 := by omega
      rw [if_pos this]
      simp only [encFetch_array]
      rw [h2 _ (by omega)]
      congr 1; omega
    · rw [encShift_input_one]; exact hfi
    · rw [encShift_endOffset_last _ _ (by simpa using hlast)]
      simp [h4]
    · simp only [encShift_output, hb0]
  · exfalso
    have hb := (searchLoop_eq_pos_iff _ _ _ _ _).1 hs
    obtain ⟨hi1, _, ⟨hp, ho⟩, _⟩ := hb
    have h0 := ho 0 (by omega)
    rw [Nat.add_zero, getD_loadWindow _ _ (by omega), hb0,
      h2 _ (by unfold arraySize bufferSize windowSize at *; omega)] at h0
    have := getD_inj_of_nodup x hn _ _ (by unfold bufferSize windowSize at *; omega)
      (by unfold bufferSize windowSize at *; omega) h0
    omega

theorem encIter_distinct (x : List Nat) (c0 : Nat) (lb0 : List Nat)
    (hlen : x.length = windowSize + bufferSize) (hn : x.Nodup) (k : Nat)
    (hk : k ≤ bufferSize) :
    ∃ s, encIter k (encInit c0 lb0 x) = .more s ∧ s.array.length = arraySize ∧
      (∀ j, j + k < arraySize → s.array.getD j 0 = x.getD (j + k) 0) ∧
      s.input = [] ∧ s.endOffset = k ∧
      s.output = x.take windowSize ++
        (((x.drop windowSize).take k).map (fun b => [255, b])).flatten := by
  have hx : arraySize ≤ x.length := by unfold arraySize; omega
  induction k with
  | zero =>
    refine ⟨_, rfl, ?_, ?_, ?_, rfl, ?_⟩
    · rw [encInit_array _ _ _ hx]; simp; exact hx
    · intro j _
      rw [encInit_array _ _ _ hx, List.take_of_length_le (by unfold arraySize; omega)]
      rfl
    · simp only [encInit_input]
      exact List.drop_eq_nil_of_le (by unfold arraySize; omega)
    · simp [encInit_output _ _ _ hx]
  | succ k ih =>
    obtain ⟨s, g0, g1, g2, g3, g4, g5⟩ := ih (by omega)
    obtain ⟨s1, f0, f1, f2, f3, f4, f5⟩ :=
      encStep_distinct x hlen hn k (by omega) s g1 g2 g3 g4
    refine ⟨s1, ?_, f1, f2, f3, f4, ?_⟩
    · have := iter_more_add encStep k 1 _ _ g0
      unfold encIter
      rw [this, iter_succ, f0]
      rfl
    · rw [f5, g5]
      have hk2 : k < (x.drop windowSize).length := by
        simp; omega
      have e : (x.drop windowSize)[k]? = some (x.getD (windowSize + k) 0) := by
        rw [List.getElem?_drop, List.getD_eq_getElem?_getD,
          List.getElem?_eq_getElem (by omega)]
        rfl
      rw [List.take_succ, e]
      simp

/-- C8. On an input of exactly `windowSize + bufferSize` pairwise distinct bytes the encoder
leaves its loop in its 41st pass, returns 1, and its output is the first `windowSize` input
bytes followed by one Literal record `[0xFF, b]` for each of the `bufferSize` lookahead
bytes `b`, in order: `windowSize + 2 * bufferSize` bytes in all. -/
theorem compress_distinct_bytes (x : List Nat) (c0 : Nat) (lb0 : List Nat) (fuel : Nat)
    (hlen : x.length = windowSize + bufferSize) (hn : x.Nodup)
    (hfuel : bufferSize + 1 ≤ fuel) :
    compress fuel c0 lb0 x =
      some (1, x.take windowSize ++ ((x.drop windowSize).map (fun b => [255, b])).flatten) ∧
    (x.take windowSize ++ ((x.drop windowSize).map (fun b => [255, b])).flatten).length =
      windowSize + 2 * bufferSize := by
  constructor
  · obtain ⟨s, g0, g1, g2, g3, g4, g5⟩ :=
      encIter_distinct x c0 lb0 hlen hn bufferSize (Nat.le_refl _)
    have hstep : encStep s = .done (encFetch s) := by
      rcases encStep_cases s with ⟨_, h⟩ | ⟨h, _⟩ | ⟨p, i, h, _⟩
      · exact h
      · rw [encFetch_endOffset] at h; exact absurd g4 h
      · rw [encFetch_endOffset] at h; exact absurd g4 h
    have h41 : encIter (bufferSize + 1) (encInit c0 lb0 x) = .done (encFetch s) := by
      have := iter_more_add encStep bufferSize 1 _ _ g0
      unfold encIter
      rw [this, iter_succ, hstep]
    have hf : encIter fuel (encInit c0 lb0 x) = .done (encFetch s) := by
      obtain ⟨m, rfl⟩ : ∃ m, fuel = bufferSize + 1 + m := ⟨fuel - (bufferSize + 1), by omega⟩
      exact iter_done_add encStep _ m _ _ h41
    unfold compress
    have h0 : ¬ x.length = 0 := by unfold windowSize bufferSize at hlen; omega
    have h1 : ¬ x.length < arraySize := by unfold arraySize; omega
    rw [if_neg h0, if_neg h1, hf]
    simp only [encFetch_output, g5]
    have e : List.take bufferSize (List.drop windowSize x) = List.drop windowSize x :=
      List.take_of_length_le (by rw [List.length_drop]; omega)
    rw [e]
  · simp only [List.length_append, List.length_take, List.length_flatten, List.map_map]
    have : (List.map (List.length ∘ fun b => [255, b]) (x.drop windowSize)) =
        List.replicate bufferSize 2 := by
      apply List.ext_getElem?
      intro i
      simp only [List.getElem?_map, List.getElem?_drop, List.getElem?_replicate]
      by_cases hi : i < bufferSize
      · simp [hi, List.getElem?_eq_getElem (l := x) (n := windowSize + i) (by omega)]
      · simp [hi, List.getElem?_eq_none (l := x) (n := windowSize + i) (by omega)]
    rw [this]
    simp only [List.sum_replicate, smul_eq_mul]
    unfold windowSize bufferSize at *
    omega

theorem compress_distinct_bytes_witness :
    compress 41 0 [] (List.range 100) =
      some (1, (List.range 100).take windowSize ++
        (((List.range 100).drop windowSize).map (fun b => [255, b])).flatten) ∧
    ((List.range 100).take windowSize ++
        (((List.range 100).drop windowSize).map (fun b => [255, b])).flatten).length =
      windowSize + 2 * bufferSize :=
  compress_distinct_bytes (List.range 100) 0 [] 41 (by simp [windowSize, bufferSize])
    (List.nodup_range 100) (by decide)




/-! ## The statements about the constant input -/

theorem encWritten_of_output (s : EncState) (w : List Nat)
    (h : (encStep s).state.output = s.output ++ w) : encWritten s = w := by
  unfold encWritten
  rw [h]
  simp

theorem encTrace_stuck (n : Nat) (s : EncState) (hl : s.last = true)
    (he : bufferSize < s.endOffset) :
    (encTrace n s).length = n ∧ ∀ w ∈ encTrace n s, isLiteral w := by
  induction n generalizing s with
  | zero => simp [encTrace]
  | succ n ih =>
    obtain ⟨s1, h1, h2, h3, h4, _⟩ := encStep_stuck s hl he
    have hw : encWritten s = [255, (loadLookahead s.array).getD 0 0] := by
      apply encWritten_of_output
      rw [h1]; exact h4
    simp only [encTrace, h1, hw]
    obtain ⟨g1, g2⟩ := ih s1 h2 h3
    refine ⟨by simp [g1], ?_⟩
    intro w hw2
    simp only [List.mem_cons] at hw2
    rcases hw2 with hw2 | hw2
    · rw [hw2]; exact ⟨_, rfl⟩
    · exact g2 w hw2

/-- C2 (the code at the failing input). On an input of `windowSize + bufferSize` equal bytes
the loop of `compress` has not been left after `n + 1` passes, whatever `n`: `last` is set
and `endOffset` is `bufferSize + 2 + n`, beyond the only value (`bufferSize`) at which the
loop is left; so `compress` has not returned after any number of passes. -/
theorem encoder_loop_never_left_on_constant_input (v c0 : Nat) (lb0 : List Nat) (n : Nat) :
    (∃ s, encIter (n + 1) (encInit c0 lb0 (List.replicate (windowSize + bufferSize) v))
        = .more s ∧ s.last = true ∧ s.endOffset = bufferSize + 2 + n) ∧
    compress n c0 lb0 (List.replicate (windowSize + bufferSize) v) = none := by
  obtain ⟨s, h1, _, _, h4, h5⟩ := encIter_constant v c0 lb0 n
  exact ⟨⟨s, h1, h4, h5⟩, compress_constant_none n v c0 lb0⟩

/-- C7 (the code at the failing input). On an input of `windowSize + bufferSize` copies of
a byte `v` the first pass writes the Match record `[windowSize, bufferSize]`, and each of
the `n` passes after it writes a Literal record: after `n + 1` passes the loop has not been
left (`endOffset` is `bufferSize + 2 + n`) and the output is the header, that Match record
and `n` Literal records. -/
theorem constant_input_match_then_literals (v c0 : Nat) (lb0 : List Nat) (n : Nat) :
    ∃ lits s,
      encTrace (n + 1) (encInit c0 lb0 (List.replicate (windowSize + bufferSize) v)) =
        [windowSize, bufferSize] :: lits ∧
      lits.length = n ∧ (∀ w ∈ lits, isLiteral w) ∧
      encIter (n + 1) (encInit c0 lb0 (List.replicate (windowSize + bufferSize) v))
        = .more s ∧
      s.endOffset = bufferSize + 2 + n ∧
      s.output = List.replicate windowSize v ++ [windowSize, bufferSize] ++ lits.flatten := by
  obtain ⟨s1, h1, h2, h3, h4⟩ := encStep_constant v c0 lb0
  obtain ⟨s2, g1, _, _, _, _, g6⟩ := encIter_stuck n s1 h2 (by omega)
  obtain ⟨t1, t2⟩ := encTrace_stuck n s1 h2 (by omega)
  have hx : arraySize ≤ (List.replicate (windowSize + bufferSize) v).length := by
    simp [arraySize]; omega
  have hout := encInit_output c0 lb0 _ hx
  have hw : encWritten (encInit c0 lb0 (List.replicate (windowSize + bufferSize) v)) =
      [windowSize, bufferSize] := by
    apply encWritten_of_output
    rw [h1, hout]
    simp only [Step.state, h4]
    simp [windowSize, bufferSize]
  have hiter : encIter (n + 1) (encInit c0 lb0 (List.replicate (windowSize + bufferSize) v))
      = .more s2 := by
    unfold encIter at g1 ⊢
    rw [iter_succ, h1]
    exact g1
  refine ⟨encTrace n s1, s2, ?_, t1, t2, hiter, by rw [g6, h3], ?_⟩
  · simp only [encTrace, h1, hw]
  · have := encIter_output (n + 1) (encInit c0 lb0 (List.replicate (windowSize + bufferSize) v))
    rw [hiter] at this
    simp only [Step.state] at this
    rw [this, hout]
    simp only [encTrace, h1, hw]
    simp [windowSize, bufferSize]



/-! ## The decoder: termination and truncated streams (C9) -/

@[simp] theorem decCopy_input (s : DecState) (o m sh : Nat) :
    (decCopy s o m sh).input = s.input := rfl

theorem decStep_more_length (s s1 : DecState) (h : decStep s = .more s1) :
    s1.input.length + 2 ≤ s.input.length := by
  unfold decStep at h
  split at h
  · rename_i b0 b1 rest hi
    rw [hi]
    split at h
    · simp only [Step.more.injEq] at h
      subst h; simp
    · split at h
      · simp only [Step.more.injEq] at h
        subst h; simp
      · simp only [Step.more.injEq] at h
        subst h; simp
  · simp at h

/-- The loop of `decompress` is left within `n` passes as soon as `2 * n` exceeds the
number of bytes still to read. -/
theorem decIter_done (n : Nat) (s : DecState) (h : s.input.length < 2 * n) :
    ∃ s1, iter decStep n s = .done s1 := by
  induction n generalizing s with
  | zero => omega
  | succ n ih =>
    rw [iter_succ]
    cases hs : decStep s with
    | done s1 => exact ⟨s1, rfl⟩
    | more s1 =>
      have := decStep_more_length s s1 hs
      exact ih s1 (by omega)

theorem iter_done_unique {σ : Type} (step : σ → Step σ) (n m : Nat) (s a b : σ)
    (h1 : iter step n s = .done a) (h2 : iter step m s = .done b) : a = b := by
  have e1 := iter_done_add step n m s a h1
  have e2 := iter_done_add step m n s b h2
  rw [Nat.add_comm] at e2
  rw [e1] at e2
  exact Step.done.inj e2

theorem decInit_input_length (c0 : Nat) (w0 wb0 stream : List Nat) :
    (decInit c0 w0 wb0 stream).input.length ≤ stream.length := by
  unfold decInit fread
  simp

/-- The decoder loop always ends: `decompress` returns 1 with some output. -/
theorem decompress_total (c0 : Nat) (w0 wb0 stream : List Nat) :
    ∃ out, decompress c0 w0 wb0 stream = some (1, out) := by
  obtain ⟨s1, h⟩ := decIter_done (stream.length + 1) (decInit c0 w0 wb0 stream)
    (by have := decInit_input_length c0 w0 wb0 stream; omega)
  exact ⟨s1.output, by unfold decompress; rw [h]⟩

theorem decompress_of_iter (c0 : Nat) (w0 wb0 stream : List Nat) (n : Nat) (s : DecState)
    (h : iter decStep n (decInit c0 w0 wb0 stream) = .done s) :
    decompress c0 w0 wb0 stream = some (1, s.output) := by
  obtain ⟨s1, h1⟩ := decIter_done (stream.length + 1) (decInit c0 w0 wb0 stream)
    (by have := decInit_input_length c0 w0 wb0 stream; omega)
  have := iter_done_unique decStep _ _ _ _ _ h1 h
  unfold decompress
  rw [h1, this]

theorem decCopy_sameVars (s t : DecState) (o m sh : Nat) (h : sameVars s t) :
    sameVars (decCopy s o m sh) (decCopy t o m sh) := by
  obtain ⟨h1, h2, h3, h4, h5⟩ := h
  unfold sameVars decCopy
  simp only [h1, h2, h3, h4, h5, and_self]

theorem decStep_literal (s : DecState) (b : Nat) (rest : List Nat)
    (hs : s.input = 255 :: b :: rest) :
    decStep s = .more (decCopy { s with c := b, input := rest } 0 0 1) := by
  unfold decStep; rw [hs]; simp only [if_true]

theorem decStep_copy (s : DecState) (o l c : Nat) (rest : List Nat) (ho : o ≠ 255)
    (hs : s.input = o :: l :: c :: rest) :
    decStep s = .more (decCopy { s with c := c, input := rest } o l (l + 1)) := by
  unfold decStep; rw [hs]; simp only [if_neg ho]

theorem decStep_copy_end (s : DecState) (o l : Nat) (ho : o ≠ 255)
    (hs : s.input = [o, l]) :
    decStep s = .more (decCopy { s with done := true, input := [] } o l (l + 1)) := by
  unfold decStep; rw [hs]; simp only [if_neg ho]

theorem decStep_short (s : DecState) (h : s.input.length < 2) :
    decStep s = .done { s with input := [] } := by
  unfold decStep
  split
  · rename_i b0 b1 rest hi
    rw [hi] at h; simp only [List.length_cons] at h; omega
  · rfl

theorem decStep_complete_record (s t : DecState) (r : Record) (rest1 rest2 : List Nat)
    (hr : r.complete) (hv : sameVars s t)
    (hs : s.input = r.bytes ++ rest1) (ht : t.input = r.bytes ++ rest2) :
    ∃ s1 t1, decStep s = .more s1 ∧ decStep t = .more t1 ∧ sameVars s1 t1 ∧
      s1.input = rest1 ∧ t1.input = rest2 := by
  obtain ⟨h1, h2, h3, h4, h5⟩ := hv
  cases r with
  | literal b =>
    simp only [Record.bytes, List.cons_append, List.nil_append] at hs ht
    refine ⟨_, _, decStep_literal s b rest1 hs, decStep_literal t b rest2 ht, ?_, rfl, rfl⟩
    apply decCopy_sameVars
    exact ⟨h1, h2, rfl, h4, h5⟩
  | copy o l lit =>
    obtain ⟨ho, hl⟩ := hr
    cases lit with
    | none => exact absurd rfl hl
    | some c =>
      simp only [Record.bytes, List.cons_append, List.nil_append] at hs ht
      refine ⟨_, _, decStep_copy s o l c rest1 ho hs, decStep_copy t o l c rest2 ho ht,
        ?_, rfl, rfl⟩
      apply decCopy_sameVars
      exact ⟨h1, h2, rfl, h4, h5⟩

theorem decIter_complete_records (rs : List Record) (s t : DecState)
    (rest1 rest2 : List Nat) (hr : ∀ r ∈ rs, r.complete) (hv : sameVars s t)
    (hs : s.input = wire rs ++ rest1) (ht : t.input = wire rs ++ rest2) :
    ∃ s1 t1, iter decStep rs.length s = .more s1 ∧ iter decStep rs.length t = .more t1 ∧
      sameVars s1 t1 ∧ s1.input = rest1 ∧ t1.input = rest2 := by
  induction rs generalizing s t with
  | nil =>
    simp only [wire, List.map_nil, List.flatten_nil, List.nil_append] at hs ht
    exact ⟨s, t, rfl, rfl, hv, hs, ht⟩
  | cons r rs ih =>
    simp only [wire, List.map_cons, List.flatten_cons, List.append_assoc] at hs ht
    obtain ⟨s1, t1, a1, a2, a3, a4, a5⟩ :=
      decStep_complete_record s t r _ _ (hr r (List.mem_cons_self _ _)) hv hs ht
    obtain ⟨s2, t2, b1, b2, b3, b4, b5⟩ :=
      ih s1 t1 (fun r hr2 => hr r (List.mem_cons_of_mem _ hr2)) a3 a4 a5
    refine ⟨s2, t2, ?_, ?_, b3, b4, b5⟩
    · rw [List.length_cons, iter_succ, a1]; exact b1
    · rw [List.length_cons, iter_succ, a2]; exact b2

theorem decInit_sameVars (c0 : Nat) (w0 wb0 header body1 body2 : List Nat)
    (hh : header.length = windowSize) :
    sameVars (decInit c0 w0 wb0 (header ++ body1)) (decInit c0 w0 wb0 (header ++ body2)) ∧
    (decInit c0 w0 wb0 (header ++ body1)).input = body1 := by
  have key : ∀ body, (fread w0 windowSize (header ++ body)).1 =
      (fread w0 windowSize header).1 := by
    intro body
    apply List.ext_getElem?
    intro k
    have e1 := fread_getD w0 (header ++ body) windowSize k
    have e2 := fread_getD w0 header windowSize k
    have l1 := fread_length w0 (header ++ body) windowSize
    have l2 := fread_length w0 header windowSize
    by_cases hk : k < w0.length
    · rw [List.getElem?_eq_getElem (by omega), List.getElem?_eq_getElem (by omega)]
      simp only [List.getD_eq_getElem?_getD, List.getElem?_eq_getElem (l := (fread w0 windowSize
        (header ++ body)).1) (n := k) (by omega), List.getElem?_eq_getElem (l := (fread w0
        windowSize header).1) (n := k) (by omega), Option.getD_some] at e1 e2
      rw [e1, e2]
      by_cases hk2 : k < windowSize
      · have c1 : k < min windowSize (header ++ body).length ∧ k < w0.length := by
          simp; omega
        have c2 : k < min windowSize header.length ∧ k < w0.length := by omega
        rw [if_pos c1, if_pos c2, List.getElem?_append_left (by omega)]
      · have c1 : ¬ (k < min windowSize (header ++ body).length ∧ k < w0.length) := by omega
        have c2 : ¬ (k < min windowSize header.length ∧ k < w0.length) := by omega
        rw [if_neg c1, if_neg c2]
    · rw [List.getElem?_eq_none (by omega), List.getElem?_eq_none (by omega)]
  refine ⟨?_, ?_⟩
  · unfold sameVars decInit
    simp only [key, and_self]
  · unfold decInit fread
    simp [← hh]

/-- C9, the claim as stated fails: on the header `0, ..., 59` followed by the single
leftover byte 7 `decompress` returns 1 and writes the header, exactly as it does on the
intact stream that ends after the header. -/
theorem truncated_stream_reported_as_success :
    decompress 0 (List.replicate 60 0) (List.replicate 60 0) (List.range 60 ++ [7])
      = some (1, List.range 60) ∧
    decompress 0 (List.replicate 60 0) (List.replicate 60 0) (List.range 60)
      = some (1, List.range 60) := by
  constructor <;> decide

/-- C1 (the code at the failing input). For an input of `windowSize + bufferSize` equal
bytes there is no number of passes after which `compress` has returned an output, so no
output exists that `decompress` could turn back into the input. -/
theorem roundtrip_fails_on_constant_input (v c0 : Nat) (lb0 : List Nat) (c1 : Nat)
    (w0 wb0 : List Nat) :
    ¬ ∃ fuel out,
      compress fuel c0 lb0 (List.replicate (windowSize + bufferSize) v) = some (1, out) ∧
      decompress c1 w0 wb0 out = some (1, List.replicate (windowSize + bufferSize) v) := by
  rintro ⟨fuel, out, h, _⟩
  rw [compress_constant_none] at h
  exact Option.noConfusion h


/-! ## The encoder in step with its input -/

theorem encShift_input (s : EncState) (shift : Nat) :
    (encShift s shift).input = s.input.drop (shift - 1) := by
  unfold encShift fread
  dsimp only
  by_cases hs : shift = 1
  · subst hs; simp
  · rw [if_pos hs]
    split_ifs <;> rfl

theorem encShift_loadBuffer_length (s : EncState) (shift : Nat) :
    (encShift s shift).loadBuffer.length = s.loadBuffer.length := by
  unfold encShift fread
  dsimp only
  split_ifs <;> simp [length_copyLoop]

theorem encShift_endOffset_not_last (s : EncState) (shift : Nat) (hl : s.last = false) :
    (encShift s shift).endOffset =
      if s.input.length < shift - 1 then shift - 1 - s.input.length else s.endOffset := by
  unfold encShift fread
  dsimp only
  by_cases hs : shift = 1
  · subst hs; simp [hl]
  · rw [if_pos hs]
    simp only [hl, Bool.false_eq_true, if_false, and_false]
    by_cases h : s.input.length < shift - 1
    · have : min (shift - 1) s.input.length < shift - 1 := by omega
      rw [if_pos this, if_pos h]
      simp only
      omega
    · have : ¬ min (shift - 1) s.input.length < shift - 1 := by omega
      rw [if_neg this, if_neg h]

theorem getD_drop (x : List Nat) (n k : Nat) : (x.drop n).getD k 0 = x.getD (n + k) 0 := by
  simp [List.getD_eq_getElem?_getD, List.getElem?_drop]

theorem encFetch_cases (x : List Nat) (p : Nat) (s : EncState) (hg : Good x p s) :
    ((encFetch s).last = true ∧ p + arraySize = x.length + s.endOffset ∧
      (encFetch s).input = []) ∨
    ((encFetch s).last = false ∧ s.endOffset = 0 ∧ p + arraySize < x.length ∧
      (encFetch s).c = x.getD (p + arraySize) 0 ∧
      (encFetch s).input = x.drop (p + arraySize + 1)) := by
  obtain ⟨_, _, _, h4, _, h6, h7, h8⟩ := hg
  unfold encFetch
  cases hi : s.input with
  | nil =>
    left
    refine ⟨rfl, ?_, rfl⟩
    rw [hi] at h6
    have : x.length ≤ p + arraySize := by
      have := congrArg List.length h6
      simp at this
      omega
    by_cases he : 0 < s.endOffset
    · exact h7 he
    · omega
  | cons b rest =>
    right
    rw [hi] at h6
    have hlen : p + arraySize < x.length := by
      have := congrArg List.length h6
      simp at this
      omega
    have he : s.endOffset = 0 := by
      by_contra he
      have := h7 (by omega)
      omega
    have hl : s.last = false := by
      cases hl : s.last
      · rfl
      · have := h8 hl; omega
    refine ⟨hl, he, hlen, ?_, ?_⟩
    · have := congrArg (fun l => l.getD 0 0) h6
      simp only [getD_drop] at this
      simpa using this
    · have := congrArg (fun l => l.drop 1) h6
      simp only [List.drop_drop, List.drop_succ_cons, List.drop_zero] at this
      rw [this]




theorem encShift_good_last (x : List Nat) (p : Nat) (t : EncState) (shift : Nat)
    (h1 : t.array.length = arraySize) (h2 : t.loadBuffer.length = bufferSize)
    (h3 : t.last = true) (h4 : t.input = [])
    (h5 : p + arraySize = x.length + t.endOffset)
    (h6 : ∀ k, k + t.endOffset < arraySize → t.array.getD k 0 = x.getD (p + k) 0)
    (h7 : 1 ≤ shift) (h8 : t.endOffset + shift ≤ bufferSize) :
    Good x (p + shift) (encShift t shift) := by
  have he := encShift_endOffset_last t shift h3
  have hb : bufferSize ≤ arraySize := by unfold arraySize; omega
  refine ⟨?_, ?_, ?_, ?_, ?_, ?_, ?_, ?_⟩
  · rw [encShift_array_length]; exact h1
  · rw [encShift_loadBuffer_length]; exact h2
  · rw [he]; exact h8
  · rw [he]; omega
  · intro k hk
    rw [he] at hk
    rw [encShift_array_getD t shift k h1 h7 (by omega)]
    have : k < arraySize - shift := by omega
    rw [if_pos this, h6 _ (by omega)]
    congr 1; omega
  · rw [encShift_input, h4]
    simp only [List.drop_nil]
    exact (List.drop_eq_nil_of_le (by omega)).symm
  · intro _; rw [he]; omega
  · intro _; rw [he]; omega

theorem encShift_good_not_last (x : List Nat) (p : Nat) (t : EncState) (shift : Nat)
    (h1 : t.array.length = arraySize) (h2 : t.loadBuffer.length = bufferSize)
    (h3 : t.last = false) (h4 : t.input = x.drop (p + arraySize + 1))
    (h5 : p + arraySize < x.length) (h5e : t.endOffset = 0)
    (h5c : t.c = x.getD (p + arraySize) 0)
    (h6 : ∀ k, k < arraySize → t.array.getD k 0 = x.getD (p + k) 0)
    (h7 : 1 ≤ shift) (h8 : shift ≤ bufferSize + 1) :
    Good x (p + shift) (encShift t shift) := by
  have he := encShift_endOffset_not_last t shift h3
  have hb : bufferSize + 1 ≤ arraySize := by unfold arraySize bufferSize windowSize; omega
  have hil : t.input.length = x.length - (p + arraySize + 1) := by
    rw [h4]; simp
  rw [hil, h5e] at he
  have hl : (encShift t shift).last = false := by rw [encShift_last]; exact h3
  refine ⟨?_, ?_, ?_, ?_, ?_, ?_, ?_, ?_⟩
  · rw [encShift_array_length]; exact h1
  · rw [encShift_loadBuffer_length]; exact h2
  · rw [he]; split <;> omega
  · rw [he]; split <;> omega
  · intro k hk
    rw [encShift_array_getD t shift k h1 h7 (by omega)]
    by_cases c1 : k < arraySize - shift
    · rw [if_pos c1, h6 _ (by omega)]
      congr 1; omega
    · rw [if_neg c1]
      by_cases c2 : k = arraySize - shift
      · rw [if_pos c2, h3, h5c]
        simp only [Bool.false_eq_true, if_false]
        congr 1; omega
      · have c3 : k < arraySize := by omega
        rw [if_neg c2, if_pos c3, fread_getD]
        have hk2 : k - (arraySize - shift + 1) < x.length - (p + arraySize + 1) := by
          rw [he] at hk
          split at hk <;> omega
        have c4 : k - (arraySize - shift + 1) < min (shift - 1) t.input.length ∧
            k - (arraySize - shift + 1) < t.loadBuffer.length := by
          rw [hil, h2]; omega
        rw [if_pos c4, h4, getD_drop]
        congr 1; omega
  · rw [encShift_input, h4, List.drop_drop]
    congr 1; omega
  · intro hpos
    rw [he] at hpos ⊢
    split at hpos
    · rename_i c; rw [if_pos c]; omega
    · omega
  · intro h; rw [hl] at h; exact absurd h (by simp)




/-- One pass of the encoder from variables in step with the input `x` at position `p`:
what is written, what it stands for in `x`, and how the loop goes on. -/
theorem encStep_good (x : List Nat) (p : Nat) (s : EncState) (hg : Good x p s) :
    (encStep s = .done (encFetch s) ∧ encWritten s = [] ∧ p + windowSize = x.length) ∨
    (∃ s1, encStep s = .more s1 ∧ encWritten s = [255, x.getD (p + windowSize) 0] ∧
        p + windowSize < x.length ∧ Good x (p + 1) s1) ∨
    (∃ off len, 1 ≤ len ∧ len ≤ bufferSize ∧ len ≤ off ∧ off ≤ windowSize ∧
      (∀ k, k < len → x.getD (p + windowSize - off + k) 0 = x.getD (p + windowSize + k) 0) ∧
      ((∃ s1, encStep s = .more s1 ∧
          encWritten s = [off, len, x.getD (p + windowSize + len) 0] ∧
          p + windowSize + len < x.length ∧ Good x (p + (len + 1)) s1) ∨
       (∃ s1, encStep s = .done s1 ∧ encWritten s = [off, len] ∧
          p + windowSize + len = x.length) ∨
       (∃ s1, encStep s = .more s1 ∧ encWritten s = [off, len] ∧
          p + windowSize + len = x.length ∧ s1.last = true ∧
          bufferSize < s1.endOffset))) := by
  have hf := encFetch_cases x p s hg
  obtain ⟨g1, g2, g3, g4, g5, g6, g7, g8⟩ := hg
  have hA : arraySize = windowSize + bufferSize := by unfold arraySize; omega
  have hW : windowSize = 60 := rfl
  have hB : bufferSize = 40 := rfl
  rcases encStep_cases s with ⟨hE, h⟩ | ⟨hE, _, h⟩ | ⟨pm, i, hE, hs, sub⟩
  · -- endOffset == bufferSize: break
    left
    rw [encFetch_endOffset] at hE
    refine ⟨h, ?_, ?_⟩
    · apply encWritten_of_output
      rw [h]; simp [Step.state]
    · have := g7 (by omega); omega
  · -- no match: a Literal record
    right; left
    rw [encFetch_endOffset] at hE
    have hb0 : (loadLookahead s.array).getD 0 0 = x.getD (p + windowSize) 0 := by
      rw [getD_loadLookahead _ _ (by omega), g5 _ (by omega)]
      rfl
    refine ⟨_, h, ?_, by omega, ?_⟩
    · apply encWritten_of_output
      rw [h]; simp only [Step.state, encShift_output, hb0]
    · rcases hf with ⟨f1, f2, f3⟩ | ⟨f1, f2, f3, f4, f5⟩
      · exact encShift_good_last x p _ 1 (by simpa using g1) (by simpa using g2) f1 f3
          (by simpa using f2) (by simpa using g5) (Nat.le_refl 1)
          (by simp only [encFetch_endOffset]; omega)
      · exact encShift_good_not_last x p _ 1 (by simpa using g1) (by simpa using g2) f1 f5
          f3 (by simpa using f2) f4
          (fun k hk => by simpa using g5 k (by omega)) (Nat.le_refl 1) (by omega)
  · -- a match at window position pm of length i
    right; right
    rw [encFetch_endOffset] at hE
    obtain ⟨hi1, hi2, ⟨hp, ho⟩, _⟩ := (searchLoop_eq_pos_iff _ _ _ _ _).1 hs
    have hoff : p + windowSize - (windowSize - pm) = p + pm := by omega
    refine ⟨windowSize - pm, i, hi1, by omega, by omega, by omega, ?_, ?_⟩
    · intro k hk
      have := ho k hk
      rw [getD_loadWindow _ _ (by omega), getD_loadLookahead _ _ (by omega),
        g5 _ (by omega), g5 _ (by omega)] at this
      rw [hoff]
      rw [show p + pm + k = p + (pm + k) by omega,
        show p + windowSize + k = p + (windowSize + k) by omega]
      exact this
    · rcases sub with ⟨h40, hl, h⟩ | ⟨h40, hl, h⟩ | ⟨h40, hne, h⟩ | ⟨h40, hne, h⟩
      · -- full length, not at the end of the input
        left
        rcases hf with ⟨f1, _⟩ | ⟨f1, f2, f3, f4, f5⟩
        · rw [hl] at f1; exact absurd f1 (by simp)
        · refine ⟨_, h, ?_, by omega, ?_⟩
          · apply encWritten_of_output
            rw [h]
            simp only [Step.state, encShift_output, f4]
            rw [show p + arraySize = p + windowSize + i by omega]
          · rw [h40]
            exact encShift_good_not_last x p _ (bufferSize + 1) (by simpa using g1)
              (by simpa using g2) f1 f5 f3 (by simpa using f2) f4
              (fun k hk => by simpa using g5 k (by omega)) (by omega) (Nat.le_refl _)
      · -- full length at the end of the input
        right; right
        rcases hf with ⟨f1, f2, f3⟩ | ⟨f1, _⟩
        · refine ⟨_, h, ?_, by omega, by simpa using f1, ?_⟩
          · apply encWritten_of_output
            rw [h]; simp [Step.state]
          · rw [encShift_endOffset_last _ _ (by simpa using f1)]
            simp only
            omega
        · rw [hl] at f1; exact absurd f1 (by simp)
      · -- shorter match followed by a real byte
        left
        have hbi : (loadLookahead s.array).getD i 0 = x.getD (p + windowSize + i) 0 := by
          rw [getD_loadLookahead _ _ (by omega), g5 _ (by omega)]
          congr 1; omega
        refine ⟨_, h, ?_, by omega, ?_⟩
        · apply encWritten_of_output
          rw [h]; simp only [Step.state, encShift_output, hbi]
        · rcases hf with ⟨f1, f2, f3⟩ | ⟨f1, f2, f3, f4, f5⟩
          · exact encShift_good_last x p _ (i + 1) (by simpa using g1) (by simpa using g2)
              f1 f3 (by simpa using f2) (by simpa using g5) (by omega)
              (by simp only [encFetch_endOffset]; omega)
          · exact encShift_good_not_last x p _ (i + 1) (by simpa using g1)
              (by simpa using g2) f1 f5 f3 (by simpa using f2) f4
              (fun k hk => by simpa using g5 k (by omega)) (by omega) (by omega)
      · -- shorter match that ends the input: break
        right; left
        refine ⟨_, h, ?_, ?_⟩
        · apply encWritten_of_output
          rw [h]; simp [Step.state]
        · have := g7 (by omega); omega




/-! ## The trailing literal rule (C10) -/

theorem encInit_good (x : List Nat) (c0 : Nat) (lb0 : List Nat)
    (hx : arraySize ≤ x.length) (hlb : lb0.length = bufferSize) :
    Good x 0 (encInit c0 lb0 x) := by
  have ha := encInit_array c0 lb0 x hx
  refine ⟨?_, hlb, ?_, ?_, ?_, ?_, ?_, ?_⟩
  · rw [ha]; simp; exact hx
  · simp
  · simp; exact hx
  · intro k hk
    simp only [encInit_endOffset, Nat.add_zero] at hk
    rw [ha, Nat.zero_add]
    simp [List.getD_eq_getElem?_getD, List.getElem?_take, hk]
  · simp
  · intro h; simp at h
  · intro h; simp at h

theorem iter_succ_more {σ : Type} (step : σ → Step σ) (n : Nat) (s0 s : σ)
    (h : iter step (n + 1) s0 = .more s) :
    ∃ s1, iter step n s0 = .more s1 ∧ step s1 = .more s := by
  induction n generalizing s0 with
  | zero =>
    rw [iter_succ] at h
    cases hs : step s0 with
    | done s2 => rw [hs] at h; simp at h
    | more s2 =>
      rw [hs] at h
      simp only [iter, Step.more.injEq] at h
      exact ⟨s0, rfl, by rw [hs, h]⟩
  | succ n ih =>
    rw [iter_succ] at h
    cases hs : step s0 with
    | done s2 => rw [hs] at h; simp at h
    | more s2 =>
      rw [hs] at h
      obtain ⟨s1, a, b⟩ := ih s2 h
      exact ⟨s1, by rw [iter_succ, hs]; exact a, b⟩

theorem encTrace_succ (n : Nat) (s0 s : EncState) (h : encIter n s0 = .more s) :
    encTrace (n + 1) s0 = encTrace n s0 ++ [encWritten s] := by
  induction n generalizing s0 with
  | zero =>
    simp only [encIter, iter, Step.more.injEq] at h
    subst h
    simp only [encTrace]
    cases encStep s0 <;> rfl
  | succ n ih =>
    unfold encIter at h ih
    rw [iter_succ] at h
    cases hs : encStep s0 with
    | done s2 => rw [hs] at h; simp at h
    | more s2 =>
      rw [hs] at h
      have := ih s2 h
      rw [encTrace, hs]
      simp only
      rw [this]
      conv_rhs => rw [encTrace, hs]
      simp

theorem coveredAll_append_singleton (ws : List (List Nat)) (w : List Nat) :
    coveredAll (ws ++ [w]) = coveredAll ws + covered w := by
  simp [coveredAll]

/-- After `n` passes that did not leave the loop, the encoder variables are in step with
the input at the position the chunks written so far stand for, or the encoder is past its
exit test (`last` set and `endOffset > bufferSize`). -/
theorem encIter_good (x : List Nat) (c0 : Nat) (lb0 : List Nat) (n : Nat) (s : EncState)
    (hx : arraySize ≤ x.length) (hlb : lb0.length = bufferSize)
    (h : encIter n (encInit c0 lb0 x) = .more s) :
    Good x (coveredAll (encTrace n (encInit c0 lb0 x))) s ∨
      (s.last = true ∧ bufferSize < s.endOffset) := by
  induction n generalizing s with
  | zero =>
    simp only [encIter, iter, Step.more.injEq] at h
    subst h
    left
    simpa [encTrace, coveredAll] using encInit_good x c0 lb0 hx hlb
  | succ n ih =>
    obtain ⟨s1, a, b⟩ := iter_succ_more encStep n _ s h
    have ht := encTrace_succ n _ s1 a
    rw [ht, coveredAll_append_singleton]
    rcases ih s1 a with hg | ⟨hl, he⟩
    · rcases encStep_good x _ s1 hg with ⟨c1, _⟩ | ⟨s2, c1, c2, _, c4⟩ |
        ⟨off, len, _, _, _, _, _, ⟨s2, c1, c2, _, c4⟩ | ⟨s2, c1, _⟩ | ⟨s2, c1, _, _, c4, c5⟩⟩
      · rw [b] at c1; simp at c1
      · rw [b] at c1
        simp only [Step.more.injEq] at c1
        subst c1
        left
        rw [c2]
        simpa [covered] using c4
      · rw [b] at c1
        simp only [Step.more.injEq] at c1
        subst c1
        left
        rw [c2]
        simpa [covered] using c4
      · rw [b] at c1; simp at c1
      · rw [b] at c1
        simp only [Step.more.injEq] at c1
        subst c1
        right
        exact ⟨c4, c5⟩
    · obtain ⟨s2, c1, c2, c3, _, _⟩ := encStep_stuck s1 hl he
      rw [b] at c1
      simp only [Step.more.injEq] at c1
      subst c1
      right
      exact ⟨c2, c3⟩

/-- C10. On an input `x` of at least `windowSize + bufferSize` bytes, let a pass of the
encoder loop (the one after any `n` passes) write a Match record with offset `off` and
length `len`. The header and the chunks written before stand for the first
`windowSize + coveredAll ...` bytes of `x`, so the matched span ends at that position plus
`len`. The record is written without trailing literal byte (`[off, len]`) if and only if
this is the length of `x`, the span ending at the last input byte; otherwise the record has
its literal byte (`[off, len, c]`). -/
theorem match_without_literal_iff_ends_input (x : List Nat) (c0 : Nat) (lb0 : List Nat)
    (n : Nat) (s : EncState) (off len : Nat)
    (hx : windowSize + bufferSize ≤ x.length) (hlb : lb0.length = bufferSize)
    (hs : encIter n (encInit c0 lb0 x) = .more s)
    (hm : isMatch (encWritten s) off len) :
    (encWritten s = [off, len] ↔
      windowSize + coveredAll (encTrace n (encInit c0 lb0 x)) + len = x.length) ∧
    (encWritten s ≠ [off, len] → ∃ c, encWritten s = [off, len, c]) := by
  have hx1 : arraySize ≤ x.length := by unfold arraySize; omega
  obtain ⟨hoff, hm⟩ := hm
  refine ⟨?_, ?_⟩
  · rcases encIter_good x c0 lb0 n s hx1 hlb hs with hg | ⟨hl, he⟩
    · rcases encStep_good x _ s hg with ⟨_, c2, _⟩ | ⟨s2, _, c2, _⟩ |
        ⟨off1, len1, _, _, _, _, _, ⟨s2, _, c2, c3, _⟩ | ⟨s2, _, c2, c3⟩ | ⟨s2, _, c2, c3, _⟩⟩
      · rw [c2] at hm; simp at hm
      · rw [c2] at hm
        simp only [List.cons.injEq, and_true, List.ne_cons_self, and_false, exists_false,
          or_false] at hm
        exact absurd hm.1.symm hoff
      · rw [c2] at hm ⊢
        simp only [List.cons.injEq, and_true, List.ne_cons_self, and_false, false_or,
          List.cons_ne_self] at hm
        obtain ⟨_, e1, e2, _⟩ := hm
        subst e1 e2
        constructor
        · intro h; simp at h
        · intro h; omega
      · rw [c2] at hm ⊢
        simp only [List.cons.injEq, and_true, List.ne_cons_self, and_false, exists_false,
          or_false] at hm
        obtain ⟨e1, e2⟩ := hm
        subst e1 e2
        constructor
        · intro _; omega
        · intro _; rfl
      · rw [c2] at hm ⊢
        simp only [List.cons.injEq, and_true, List.ne_cons_self, and_false, exists_false,
          or_false] at hm
        obtain ⟨e1, e2⟩ := hm
        subst e1 e2
        constructor
        · intro _; omega
        · intro _; rfl
    · obtain ⟨s2, c1, _, _, c4, _⟩ := encStep_stuck s hl he
      have hw : encWritten s = [255, (loadLookahead s.array).getD 0 0] := by
        apply encWritten_of_output
        rw [c1]; exact c4
      rw [hw] at hm
      simp only [List.cons.injEq, and_true, List.ne_cons_self, and_false, exists_false,
        or_false] at hm
      exact absurd hm.1.symm hoff
  · intro hne
    rcases hm with h | h
    · exact absurd h hne
    · exact h



theorem match_without_literal_iff_ends_input_witness :
    ((encWritten (encInit 0 (List.replicate 40 0) (List.replicate 101 3)) = [60, 40] ↔
      windowSize + coveredAll (encTrace 0 (encInit 0 (List.replicate 40 0)
        (List.replicate 101 3))) + 40 = (List.replicate 101 3).length) ∧
    (encWritten (encInit 0 (List.replicate 40 0) (List.replicate 101 3)) ≠ [60, 40] →
      ∃ c, encWritten (encInit 0 (List.replicate 40 0) (List.replicate 101 3))
        = [60, 40, c])) :=
  match_without_literal_iff_ends_input (List.replicate 101 3) 0 (List.replicate 40 0) 0
    (encInit 0 (List.replicate 40 0) (List.replicate 101 3)) 60 40
    (by simp [windowSize, bufferSize]) (by simp [bufferSize]) rfl
    ⟨by decide, Or.inr ⟨3, by decide⟩⟩


/-! ## The decoder replaying records -/

theorem length_copied (out : List Nat) (off len : Nat) (h1 : len ≤ off)
    (h2 : off ≤ out.length) : (copied out off len).length = len := by
  unfold copied
  simp only [List.length_take, List.length_drop]
  omega

/-- The window after lines 260-274 for a record in range. -/
theorem decCopy_window (s : DecState) (off len : Nat)
    (hw : s.window.length = windowSize) (hb : s.writeBuffer.length = windowSize)
    (h1 : len ≤ off) (h2 : off ≤ windowSize) (h3 : len < windowSize) :
    (decCopy s off len (len + 1)).window =
      s.window.drop (len + 1) ++ (s.window.drop (windowSize - off)).take len ++ [s.c] := by
  have hW : windowSize = 60 := rfl
  unfold decCopy
  simp only
  apply List.ext_getElem?
  intro j
  simp only [List.getElem?_set, length_copyLoop, length_shiftLoop, getElem?_copyLoop,
    getElem?_shiftLoop, List.getD_eq_getElem?_getD, hw, hb, List.getElem?_append,
    List.length_append, List.length_drop, List.length_take, List.getElem?_take,
    List.getElem?_drop, List.length_singleton]
  have hmin : min len (windowSize - (windowSize - off)) = len := by omega
  rw [hmin]
  by_cases c1 : windowSize - 1 = j
  · have a1 : windowSize - 1 < windowSize := by omega
    have a2 : ¬ j < windowSize - (len + 1) + len := by omega
    rw [if_pos c1, if_pos a1, if_neg a2]
    have a3 : j - (windowSize - (len + 1) + len) = 0 := by omega
    rw [a3]; rfl
  · rw [if_neg c1]
    by_cases c2 : windowSize - (len + 1) ≤ j ∧ j < windowSize - (len + 1) + len ∧
        j < windowSize
    · rw [if_pos c2]
      have a2 : j < windowSize - (len + 1) + len := by omega
      have a3 : ¬ j < windowSize - (len + 1) := by omega
      rw [if_pos a2, if_neg a3]
      have a4 : j - (windowSize - (len + 1)) < len := by omega
      rw [if_pos a4]
      have a5 : 0 ≤ 0 + (j - (windowSize - (len + 1))) ∧
          0 + (j - (windowSize - (len + 1))) < 0 + len ∧
          0 + (j - (windowSize - (len + 1))) < windowSize := by omega
      rw [if_pos a5]
      have a6 : windowSize - off + (j - (windowSize - (len + 1))) < s.window.length := by
        omega
      simp only [Nat.zero_add, Nat.sub_zero]
      rw [List.getElem?_eq_getElem a6]; rfl
    · rw [if_neg c2]
      have a2 : j < windowSize - (len + 1) ∨ windowSize ≤ j := by omega
      rcases a2 with a2 | a2
      · have a3 : j < windowSize - (len + 1) ∧ j < windowSize := by omega
        have a4 : j < windowSize - (len + 1) + len := by omega
        have a5 : len + 1 + j < s.window.length := by omega
        have a7 : j + (len + 1) = len + 1 + j := by omega
        rw [if_pos a3, if_pos a4, if_pos a2, a7, List.getElem?_eq_getElem a5]
        rfl
      · have a3 : ¬ (j < windowSize - (len + 1) ∧ j < windowSize) := by omega
        have a4 : ¬ j < windowSize - (len + 1) + len := by omega
        rw [if_neg a3, if_neg a4]
        have a5 : s.window[j]? = none := List.getElem?_eq_none (by omega)
        have a6 : ([s.c] : List Nat)[j - (windowSize - (len + 1) + len)]? = none :=
          List.getElem?_eq_none (by simp; omega)
        rw [a5, a6]

/-- The bytes lines 260-263 write for a record in range. -/
theorem decCopy_slice (s : DecState) (off len : Nat)
    (hw : s.window.length = windowSize) (hb : s.writeBuffer.length = windowSize)
    (h1 : len ≤ off) (h2 : off ≤ windowSize) (h3 : len < windowSize) :
    slice (copyLoop s.window 0 (windowSize - off) len s.writeBuffer) 0 len =
      (s.window.drop (windowSize - off)).take len := by
  apply List.ext_getElem?
  intro j
  simp only [getElem?_slice, List.getD_eq_getElem?_getD, getElem?_copyLoop, hb,
    List.getElem?_take, List.getElem?_drop]
  by_cases c : j < len
  · have a1 : 0 ≤ 0 + j ∧ 0 + j < 0 + len ∧ 0 + j < windowSize := by omega
    have a2 : windowSize - off + j < s.window.length := by omega
    rw [if_pos c, if_pos c, if_pos a1]
    simp only [Nat.zero_add, Nat.sub_zero]
    rw [List.getElem?_eq_getElem a2]; rfl
  · rw [if_neg c, if_neg c]

theorem decCopy_output (s : DecState) (off len : Nat)
    (hw : s.window.length = windowSize) (hb : s.writeBuffer.length = windowSize)
    (h1 : len ≤ off) (h2 : off ≤ windowSize) (h3 : len < windowSize) :
    (decCopy s off len (len + 1)).output =
      s.output ++ (s.window.drop (windowSize - off)).take len ++
        (if s.done then [] else [s.c]) := by
  have := decCopy_slice s off len hw hb h1 h2 h3
  unfold decCopy
  simp only [this]
  cases s.done <;> simp

theorem decCopy_lengths (s : DecState) (off len sh : Nat) :
    (decCopy s off len sh).window.length = s.window.length ∧
    (decCopy s off len sh).writeBuffer.length = s.writeBuffer.length ∧
    (decCopy s off len sh).done = s.done ∧ (decCopy s off len sh).c = s.c := by
  unfold decCopy
  simp [length_copyLoop, length_shiftLoop]

theorem window_copied (s : DecState) (off len : Nat)
    (h2 : off ≤ windowSize) (ho : windowSize ≤ s.output.length)
    (hwin : s.window = lastWindow s.output) :
    (s.window.drop (windowSize - off)).take len = copied s.output off len := by
  rw [hwin]
  unfold lastWindow copied
  rw [List.drop_drop]
  congr 2
  omega

theorem lastWindow_append (out add : List Nat) (ho : windowSize ≤ out.length)
    (ha : add.length ≤ windowSize) :
    lastWindow (out ++ add) = (lastWindow out).drop add.length ++ add := by
  unfold lastWindow
  rw [List.drop_drop, List.length_append, List.drop_append_of_le_length (by omega)]
  congr 2
  omega




theorem decCopy_record (t : DecState) (off len : Nat) (hinv : DecInv t)
    (h1 : len ≤ off) (h2 : off ≤ windowSize) (h3 : len < windowSize) :
    DecInv (decCopy t off len (len + 1)) ∧
    (decCopy t off len (len + 1)).output = t.output ++ copied t.output off len ++ [t.c] := by
  obtain ⟨i1, i2, i3, i4, i5⟩ := hinv
  have hl := decCopy_lengths t off len (len + 1)
  have hwd := decCopy_window t off len i1 i2 h1 h2 h3
  have hout := decCopy_output t off len i1 i2 h1 h2 h3
  have hcp := window_copied t off len h2 i4 i5
  have hlen := length_copied t.output off len h1 (by omega)
  rw [hcp] at hwd hout
  rw [i3] at hout
  simp only [Bool.false_eq_true, if_false] at hout
  refine ⟨⟨by rw [hl.1]; exact i1, by rw [hl.2.1]; exact i2, by rw [hl.2.2.1]; exact i3,
    ?_, ?_⟩, hout⟩
  · rw [hout]; simp only [List.length_append]; omega
  · rw [hwd, hout, List.append_assoc t.output,
      lastWindow_append _ _ i4 (by simp only [List.length_append, hlen, List.length_singleton]; omega),
      ← i5]
    simp only [List.length_append, hlen, List.length_singleton, List.append_assoc]

theorem decStep_record_inv (s : DecState) (r : Record) (rest : List Nat)
    (hinv : DecInv s) (hc : r.complete) (hr : r.inRange) (hs : s.input = r.bytes ++ rest) :
    ∃ s1, decStep s = .more s1 ∧ DecInv s1 ∧ s1.output = expandRecord s.output r ∧
      s1.input = rest := by
  have hW : windowSize = 60 := rfl
  cases r with
  | literal b =>
    simp only [Record.bytes, List.cons_append, List.nil_append] at hs
    have hinv2 : DecInv { s with c := b, input := rest } := hinv
    obtain ⟨a1, a2⟩ := decCopy_record { s with c := b, input := rest } 0 0 hinv2
      (Nat.le_refl 0) (by omega) (by omega)
    refine ⟨_, decStep_literal s b rest hs, a1, ?_, rfl⟩
    have a3 : (decCopy { s with c := b, input := rest } 0 0 1).output = _ := a2
    rw [a3]
    simp [expandRecord, copied]
  | copy o l lit =>
    obtain ⟨ho, hl⟩ := hc
    obtain ⟨r1, r2, r3⟩ := hr
    cases lit with
    | none => exact absurd rfl hl
    | some c =>
      simp only [Record.bytes, List.cons_append, List.nil_append] at hs
      have hinv2 : DecInv { s with c := c, input := rest } := hinv
      obtain ⟨a1, a2⟩ := decCopy_record { s with c := c, input := rest } o l hinv2 r1 r2 r3
      refine ⟨_, decStep_copy s o l c rest ho hs, a1, ?_, rfl⟩
      rw [a2]
      simp [expandRecord]

/-- The final Match record without trailing literal: the bytes are copied to the output,
but the window is shifted by `length + 1` and its last slot gets the stale `c`. -/
theorem decStep_final_inv (s : DecState) (o l : Nat) (hinv : DecInv s)
    (hr : (Record.copy o l none).inRange) (hs : s.input = [o, l]) :
    ∃ s1, decStep s = .more s1 ∧ s1.output = s.output ++ copied s.output o l ∧
      s1.input = [] ∧ s1.done = true ∧
      s1.window = s.window.drop (l + 1) ++ copied s.output o l ++ [s.c] := by
  obtain ⟨i1, i2, i3, i4, i5⟩ := hinv
  obtain ⟨r1, r2, r3⟩ := hr
  have ho : o ≠ 255 := by unfold windowSize at r2; omega
  refine ⟨_, decStep_copy_end s o l ho hs, ?_, rfl, ?_, ?_⟩
  · have hout := decCopy_output { s with done := true, input := [] } o l i1 i2 r1 r2 r3
    have hcp := window_copied s o l r2 i4 i5
    simp only [if_true, List.append_nil, hcp] at hout
    exact hout
  · exact (decCopy_lengths { s with done := true, input := [] } o l (l + 1)).2.2.1
  · have hwd := decCopy_window { s with done := true, input := [] } o l i1 i2 r1 r2 r3
    have hcp := window_copied s o l r2 i4 i5
    simp only [hcp] at hwd
    exact hwd

theorem referenceExpand_cons (out : List Nat) (r : Record) (rs : List Record) :
    referenceExpand out (r :: rs) = referenceExpand (expandRecord out r) rs := rfl

theorem referenceExpand_append (out : List Nat) (rs : List Record) (r : Record) :
    referenceExpand out (rs ++ [r]) = expandRecord (referenceExpand out rs) r := by
  unfold referenceExpand
  simp [List.foldl_append]

theorem wire_append (rs : List Record) (r : Record) : wire (rs ++ [r]) = wire rs ++ r.bytes := by
  simp [wire]

theorem decIter_records (rs : List Record) (s : DecState) (rest : List Nat)
    (hinv : DecInv s) (hr : ∀ r ∈ rs, r.complete ∧ r.inRange)
    (hs : s.input = wire rs ++ rest) :
    ∃ s1, iter decStep rs.length s = .more s1 ∧ DecInv s1 ∧
      s1.output = referenceExpand s.output rs ∧ s1.input = rest := by
  induction rs generalizing s with
  | nil =>
    simp only [wire, List.map_nil, List.flatten_nil, List.nil_append] at hs
    exact ⟨s, rfl, hinv, rfl, hs⟩
  | cons r rs ih =>
    simp only [wire, List.map_cons, List.flatten_cons, List.append_assoc] at hs
    obtain ⟨h1, h2⟩ := hr r (List.mem_cons_self _ _)
    obtain ⟨s1, a1, a2, a3, a4⟩ := decStep_record_inv s r _ hinv h1 h2 hs
    obtain ⟨s2, b1, b2, b3, b4⟩ := ih s1 a2 (fun r hr2 => hr r (List.mem_cons_of_mem _ hr2)) a4
    refine ⟨s2, ?_, b2, ?_, b4⟩
    · rw [List.length_cons, iter_succ, a1]; exact b1
    · rw [b3, a3, referenceExpand_cons]

theorem decInit_inv (c0 : Nat) (w0 wb0 header body : List Nat)
    (hh : header.length = windowSize) (hw0 : w0.length = windowSize)
    (hwb : wb0.length = windowSize) :
    DecInv (decInit c0 w0 wb0 (header ++ body)) ∧
    (decInit c0 w0 wb0 (header ++ body)).output = header ∧
    (decInit c0 w0 wb0 (header ++ body)).input = body := by
  have hwin : (fread w0 windowSize (header ++ body)).1 = header := by
    rw [fread_fst_eq _ _ _ (by omega)]
    have e1 : List.take windowSize (header ++ body) = header := by
      rw [← hh]; simp
    have e2 : List.drop (min windowSize (header ++ body).length) w0 = [] := by
      apply List.drop_eq_nil_of_le
      simp; omega
    rw [e1, e2, List.append_nil]
  have hout : (decInit c0 w0 wb0 (header ++ body)).output = header := by
    unfold decInit
    simp only [hwin]
    rw [slice_eq_take_drop _ _ _ (by omega)]
    simp [← hh]
  refine ⟨⟨?_, hwb, rfl, ?_, ?_⟩, hout, ?_⟩
  · unfold decInit; simp only [hwin]; exact hh
  · rw [hout]; omega
  · rw [hout]
    unfold decInit lastWindow
    simp only [hwin, hh, Nat.sub_self, List.drop_zero]
  · unfold decInit fread
    simp [← hh]




theorem complete_of_inRange (r : Record) (h1 : r.inRange) (h2 : r.hasLiteral) :
    r.complete := by
  cases r with
  | literal b => trivial
  | copy o l lit =>
    obtain ⟨_, a, _⟩ := h1
    exact ⟨by unfold windowSize at a; omega, h2⟩

theorem inRange_of_wellFormed (r : Record) (h : r.wellFormed) : r.inRange := by
  cases r with
  | literal b => trivial
  | copy o l lit =>
    obtain ⟨_, a, b, c⟩ := h
    exact ⟨a, b, by unfold bufferSize at c; unfold windowSize; omega⟩

/-- The decoder on a header followed by records in range of which only the last may lack
its literal: the output is the reference expansion. -/
theorem decompress_records (c0 : Nat) (w0 wb0 header : List Nat) (rs : List Record)
    (hh : header.length = windowSize) (hw0 : w0.length = windowSize)
    (hwb : wb0.length = windowSize)
    (hin : ∀ r ∈ rs, r.inRange) (hlit : ∀ r ∈ rs.dropLast, r.hasLiteral) :
    decompress c0 w0 wb0 (header ++ wire rs) = some (1, referenceExpand header rs) := by
  rcases List.eq_nil_or_concat rs with h | ⟨front, last, h⟩
  · subst h
    obtain ⟨a1, a2, a3⟩ := decInit_inv c0 w0 wb0 header (wire []) hh hw0 hwb
    have d : iter decStep 1 (decInit c0 w0 wb0 (header ++ wire [])) =
        .done { decInit c0 w0 wb0 (header ++ wire []) with input := [] } := by
      rw [iter_succ, decStep_short _ (by rw [a3]; simp [wire])]
    rw [decompress_of_iter _ _ _ _ _ _ d]
    simp [a2, referenceExpand]
  · rw [List.concat_eq_append] at h
    subst h
    rw [List.dropLast_concat] at hlit
    have hfront : ∀ r ∈ front, r.complete ∧ r.inRange := fun r hr =>
      ⟨complete_of_inRange r (hin r (List.mem_append_left _ hr)) (hlit r hr),
        hin r (List.mem_append_left _ hr)⟩
    have hlast : last.inRange := hin last (List.mem_append_right _ (List.mem_singleton_self _))
    obtain ⟨a1, a2, a3⟩ := decInit_inv c0 w0 wb0 header (wire (front ++ [last])) hh hw0 hwb
    have a4 : (decInit c0 w0 wb0 (header ++ wire (front ++ [last]))).input =
        wire front ++ last.bytes := by rw [a3, wire_append]
    obtain ⟨s1, b1, b2, b3, b4⟩ := decIter_records front _ last.bytes a1 hfront a4
    rw [a2] at b3
    have key : ∃ s2, decStep s1 = .more s2 ∧ s2.input = [] ∧
        s2.output = expandRecord s1.output last := by
      cases hl : last with
      | literal b =>
        rw [hl] at b4 hlast
        obtain ⟨s2, c1, _, c3, c4⟩ := decStep_record_inv s1 (.literal b) [] b2 trivial hlast
          (by rw [b4]; simp)
        exact ⟨s2, c1, c4, c3⟩
      | copy o l lit =>
        rw [hl] at b4 hlast
        cases lit with
        | some c =>
          obtain ⟨s2, c1, _, c3, c4⟩ := decStep_record_inv s1 (.copy o l (some c)) [] b2
            (complete_of_inRange _ hlast (by simp [Record.hasLiteral])) hlast
            (by rw [b4]; simp)
          exact ⟨s2, c1, c4, c3⟩
        | none =>
          obtain ⟨s2, c1, c2, c3, _⟩ := decStep_final_inv s1 o l b2 hlast b4
          exact ⟨s2, c1, c3, by rw [c2]; simp [expandRecord]⟩
    obtain ⟨s2, c1, c2, c3⟩ := key
    have d : iter decStep (front.length + 2) (decInit c0 w0 wb0 (header ++ wire (front ++ [last])))
        = .done { s2 with input := [] } := by
      rw [iter_more_add decStep _ 2 _ _ b1, iter_succ, c1]
      simp only
      rw [iter_succ, decStep_short s2 (by rw [c2]; simp)]
    rw [decompress_of_iter _ _ _ _ _ _ d]
    simp only [c3, b3, referenceExpand_append]

/-- C14. For a stream made of a `windowSize`-byte header followed by records in which every
Match has `1 <= length <= offset <= windowSize` and `length <= bufferSize`, and in which
only the last record may lack its trailing literal, `decompress` returns 1 and its output
is the reference expansion: the header, then for each Literal its byte, for each Match the
`length` bytes that begin `offset` bytes before the current end of the output and then its
literal byte when present. -/
theorem decompress_reference_expansion (c0 : Nat) (w0 wb0 header : List Nat)
    (rs : List Record)
    (hh : header.length = windowSize) (hw0 : w0.length = windowSize)
    (hwb : wb0.length = windowSize)
    (hwf : ∀ r ∈ rs, r.wellFormed) (hlit : ∀ r ∈ rs.dropLast, r.hasLiteral) :
    decompress c0 w0 wb0 (header ++ wire rs) = some (1, referenceExpand header rs) :=
  decompress_records c0 w0 wb0 header rs hh hw0 hwb
    (fun r hr => inRange_of_wellFormed r (hwf r hr)) hlit

theorem decompress_reference_expansion_witness :
    decompress 0 (List.replicate 60 0) (List.replicate 60 0)
        (List.range 60 ++ wire [Record.literal 9, Record.copy 3 2 (some 8),
          Record.copy 60 1 none]) =
      some (1, referenceExpand (List.range 60) [Record.literal 9, Record.copy 3 2 (some 8),
          Record.copy 60 1 none]) :=
  decompress_reference_expansion 0 (List.replicate 60 0) (List.replicate 60 0)
    (List.range 60) [Record.literal 9, Record.copy 3 2 (some 8), Record.copy 60 1 none]
    (by simp [windowSize]) (by simp [windowSize]) (by simp [windowSize])
    (by
      intro r hr
      simp only [List.mem_cons, List.mem_singleton, List.not_mem_nil, or_false] at hr
      rcases hr with rfl | rfl | rfl
      · trivial
      · exact ⟨by decide, by decide, by decide, by decide⟩
      · exact ⟨by decide, by decide, by decide, by decide⟩)
    (by
      intro r hr
      simp only [List.dropLast, List.mem_cons, List.mem_singleton, List.not_mem_nil,
        or_false] at hr
      rcases hr with rfl | rfl
      · trivial
      · simp [Record.hasLiteral])

/-- C13 as the code has it. After the decoder has replayed any number of records that have
their literal byte (Literals, and Matches with trailing literal and with
`length <= offset <= windowSize`, `length < windowSize`), its `windowSize`-byte window is
the most recent `windowSize` bytes of the output produced so far, which is the reference
expansion of those records. -/
theorem decoder_window_after_records (c0 : Nat) (w0 wb0 header : List Nat)
    (rs : List Record) (rest : List Nat)
    (hh : header.length = windowSize) (hw0 : w0.length = windowSize)
    (hwb : wb0.length = windowSize)
    (hr : ∀ r ∈ rs, r.hasLiteral ∧ r.inRange) :
    ∃ s, iter decStep rs.length (decInit c0 w0 wb0 (header ++ (wire rs ++ rest))) = .more s ∧
      s.window = lastWindow s.output ∧ s.window.length = windowSize ∧
      s.output = referenceExpand header rs := by
  obtain ⟨a1, a2, a3⟩ := decInit_inv c0 w0 wb0 header (wire rs ++ rest) hh hw0 hwb
  obtain ⟨s1, b1, b2, b3, _⟩ := decIter_records rs _ rest a1
    (fun r h => ⟨complete_of_inRange r (hr r h).2 (hr r h).1, (hr r h).2⟩) a3
  exact ⟨s1, b1, b2.2.2.2.2, b2.1, by rw [b3, a2]⟩

theorem decoder_window_after_records_witness :
    ∃ s, iter decStep [Record.literal 9, Record.copy 3 2 (some 8)].length
        (decInit 0 (List.replicate 60 0) (List.replicate 60 0)
          (List.range 60 ++ (wire [Record.literal 9, Record.copy 3 2 (some 8)] ++ [60, 1])))
        = .more s ∧
      s.window = lastWindow s.output ∧ s.window.length = windowSize ∧
      s.output = referenceExpand (List.range 60)
        [Record.literal 9, Record.copy 3 2 (some 8)] :=
  decoder_window_after_records 0 (List.replicate 60 0) (List.replicate 60 0)
    (List.range 60) [Record.literal 9, Record.copy 3 2 (some 8)] [60, 1]
    (by simp [windowSize]) (by simp [windowSize]) (by simp [windowSize])
    (by
      intro r hr
      simp only [List.mem_cons, List.mem_singleton, List.not_mem_nil, or_false] at hr
      rcases hr with rfl | rfl
      · exact ⟨trivial, trivial⟩
      · exact ⟨by simp [Record.hasLiteral], by decide, by decide, by decide⟩)

set_option maxRecDepth 100000 in
/-- C13, the claim as stated fails for the final Match without trailing literal: on the
header `0, ..., 59`, the Literal 7 and the final Match `[60, 1]`, after the two passes the
output ends with `..., 58, 59, 7, 1` but the window ends with `..., 59, 7, 1, 7` (shifted by
`length + 1`, its last slot filled with the stale `c`). -/
theorem final_match_window_differs :
    (iter decStep 2 (decInit 0 (List.replicate 60 0) (List.replicate 60 0)
        (List.range 60 ++ wire [Record.literal 7, Record.copy 60 1 none]))).state.window
      = (List.range 60).drop 3 ++ [7, 1, 7] ∧
    lastWindow (iter decStep 2 (decInit 0 (List.replicate 60 0) (List.replicate 60 0)
        (List.range 60 ++ wire [Record.literal 7, Record.copy 60 1 none]))).state.output
      = (List.range 60).drop 2 ++ [7, 1] ∧
    (iter decStep 2 (decInit 0 (List.replicate 60 0) (List.replicate 60 0)
        (List.range 60 ++ wire [Record.literal 7, Record.copy 60 1 none]))).state.window
      ≠ lastWindow (iter decStep 2 (decInit 0 (List.replicate 60 0) (List.replicate 60 0)
        (List.range 60 ++ wire [Record.literal 7, Record.copy 60 1 none]))).state.output := by
  refine ⟨by decide, by decide, ?_⟩
  have h1 : (iter decStep 2 (decInit 0 (List.replicate 60 0) (List.replicate 60 0)
      (List.range 60 ++ wire [Record.literal 7, Record.copy 60 1 none]))).state.window
      = (List.range 60).drop 3 ++ [7, 1, 7] := by decide
  have h2 : lastWindow (iter decStep 2 (decInit 0 (List.replicate 60 0)
      (List.replicate 60 0)
      (List.range 60 ++ wire [Record.literal 7, Record.copy 60 1 none]))).state.output
      = (List.range 60).drop 2 ++ [7, 1] := by decide
  rw [h1, h2]
  decide




/-! ## The header (C11) -/

theorem decIndices_in_bounds (o l : Nat) (h1 : l ≤ o) (h2 : o ≤ windowSize)
    (h3 : l < windowSize) :
    (∀ idx ∈ decWindowIndices o l (l + 1), 0 ≤ idx ∧ idx < (windowSize : Int)) ∧
    (∀ idx ∈ decWriteBufferIndices l, 0 ≤ idx ∧ idx < (windowSize : Int)) := by
  constructor
  · intro idx hidx
    unfold decWindowIndices at hidx
    simp only [List.mem_append, List.mem_map, List.mem_range, List.mem_flatten,
      List.mem_singleton] at hidx
    rcases hidx with ((⟨i, hi, rfl⟩ | ⟨lst, ⟨i, hi, rfl⟩, hmem⟩) | ⟨i, hi, rfl⟩) | rfl
    · omega
    · simp only [List.mem_cons, List.mem_singleton, List.not_mem_nil, or_false] at hmem
      rcases hmem with rfl | rfl
      · omega
      · push_cast at hi ⊢; omega
    · push_cast; omega
    · unfold windowSize; omega
  · intro idx hidx
    unfold decWriteBufferIndices at hidx
    simp only [List.mem_map, List.mem_range] at hidx
    obtain ⟨i, hi, rfl⟩ := hidx
    omega

/-- The bytes still to read after `k` passes that did not leave the loop are those of the
records from the `k`-th on. -/
theorem decIter_input (rs : List Record) (k : Nat) (s0 s : DecState)
    (hin : ∀ r ∈ rs, r.inRange) (hlit : ∀ r ∈ rs.dropLast, r.hasLiteral)
    (h0 : s0.input = wire rs) (hk : iter decStep k s0 = .more s) :
    s.input = wire (rs.drop k) := by
  induction k generalizing s with
  | zero =>
    simp only [iter, Step.more.injEq] at hk
    subst hk
    simpa using h0
  | succ k ih =>
    obtain ⟨s1, a, b⟩ := iter_succ_more decStep k s0 s hk
    have hi := ih s1 a
    by_cases hlen : k < rs.length
    · have hd : rs.drop k = rs[k] :: rs.drop (k + 1) := List.drop_eq_getElem_cons hlen
      have hmem : rs[k] ∈ rs := List.getElem_mem hlen
      have hr := hin _ hmem
      rw [hd] at hi
      simp only [wire, List.map_cons, List.flatten_cons] at hi
      cases hrec : rs[k] with
      | literal v =>
        rw [hrec] at hi
        simp only [Record.bytes, List.cons_append, List.nil_append] at hi
        rw [decStep_literal s1 v _ hi] at b
        simp only [Step.more.injEq] at b
        rw [← b]; rfl
      | copy o l lit =>
        rw [hrec] at hi hr
        have ho : o ≠ 255 := by
          have := hr.2.1; unfold windowSize at this; omega
        cases lit with
        | some c =>
          simp only [Record.bytes, List.cons_append, List.nil_append] at hi
          rw [decStep_copy s1 o l c _ ho hi] at b
          simp only [Step.more.injEq] at b
          rw [← b]; rfl
        | none =>
          have hnil : rs.drop (k + 1) = [] := by
            by_contra hne
            have hk1 : k + 1 < rs.length := by
              by_contra hc
              exact hne (List.drop_eq_nil_of_le (by omega))
            have hk2 : k < rs.dropLast.length := by
              rw [List.length_dropLast]; omega
            have : rs[k] ∈ rs.dropLast :=
              List.mem_iff_getElem.2 ⟨k, hk2, List.getElem_dropLast rs k hk2⟩
            have := hlit _ this
            rw [hrec] at this
            exact this rfl
          rw [hnil] at hi ⊢
          simp only [Record.bytes, List.map_nil, List.flatten_nil, List.append_nil] at hi
          rw [decStep_copy_end s1 o l ho hi] at b
          simp only [Step.more.injEq] at b
          rw [← b]; rfl
    · have hd : rs.drop k = [] := List.drop_eq_nil_of_le (by omega)
      rw [hd] at hi
      rw [decStep_short s1 (by rw [hi]; simp [wire])] at b
      simp at b

/-- C18. For a stream made of the header and records whose Matches satisfy
`length <= offset <= windowSize` and `length < windowSize` (only the last record may lack
its literal), every subscript with which a pass of the decoder loop indexes `window[]` or
`writeBuffer[]` lies in `[0, windowSize)`; in particular, for each Match record, the copy
source subscripts `windowSize - offset + i` and the re-entry subscripts
`windowSize - (length + 1) + i`, `i < length`. -/
theorem decoder_subscripts_in_bounds (c0 : Nat) (w0 wb0 header : List Nat)
    (rs : List Record) (k : Nat) (s : DecState)
    (hh : header.length = windowSize)
    (hin : ∀ r ∈ rs, r.inRange) (hlit : ∀ r ∈ rs.dropLast, r.hasLiteral)
    (hk : iter decStep k (decInit c0 w0 wb0 (header ++ wire rs)) = .more s) :
    (∀ idx ∈ (decAccess s).1, 0 ≤ idx ∧ idx < (windowSize : Int)) ∧
    (∀ idx ∈ (decAccess s).2, 0 ≤ idx ∧ idx < (windowSize : Int)) ∧
    (∀ o l lit, Record.copy o l lit ∈ rs → ∀ i : Nat, i < l →
      (0 ≤ (windowSize : Int) - o + i ∧ (windowSize : Int) - o + i < windowSize) ∧
      (0 ≤ (windowSize : Int) - (l + 1) + i ∧ (windowSize : Int) - (l + 1) + i < windowSize)) := by
  have h0 := (decInit_sameVars c0 w0 wb0 header (wire rs) (wire rs) hh).2
  have hi := decIter_input rs k _ s hin hlit h0 hk
  have hacc : (∀ idx ∈ (decAccess s).1, 0 ≤ idx ∧ idx < (windowSize : Int)) ∧
      (∀ idx ∈ (decAccess s).2, 0 ≤ idx ∧ idx < (windowSize : Int)) := by
    by_cases hlen : k < rs.length
    · have hd : rs.drop k = rs[k] :: rs.drop (k + 1) := List.drop_eq_getElem_cons hlen
      have hr := hin _ (List.getElem_mem hlen)
      rw [hd] at hi
      simp only [wire, List.map_cons, List.flatten_cons] at hi
      cases hrec : rs[k] with
      | literal v =>
        rw [hrec] at hi
        simp only [Record.bytes, List.cons_append, List.nil_append] at hi
        unfold decAccess
        rw [hi]
        simp only [if_true]
        exact decIndices_in_bounds 0 0 (Nat.le_refl 0) (by unfold windowSize; omega)
          (by unfold windowSize; omega)
      | copy o l lit =>
        rw [hrec] at hi hr
        have ho : o ≠ 255 := by
          have := hr.2.1; unfold windowSize at this; omega
        have hb : ∃ rest, s.input = o :: l :: rest := by
          cases lit with
          | none => exact ⟨(List.map Record.bytes (List.drop (k + 1) rs)).flatten, by
              rw [hi]; rfl⟩
          | some c => exact ⟨c :: (List.map Record.bytes (List.drop (k + 1) rs)).flatten, by
              rw [hi]; rfl⟩
        obtain ⟨rest, hb⟩ := hb
        unfold decAccess
        rw [hb]
        simp only [if_neg ho]
        exact decIndices_in_bounds o l hr.1 hr.2.1 hr.2.2
    · have hd : rs.drop k = [] := List.drop_eq_nil_of_le (by omega)
      rw [hd] at hi
      unfold decAccess
      rw [hi]
      simp [wire]
  refine ⟨hacc.1, hacc.2, ?_⟩
  intro o l lit hmem i hi
  obtain ⟨a, b, c⟩ := hin _ hmem
  unfold windowSize at *
  omega

theorem decoder_subscripts_in_bounds_witness :
    (∀ idx ∈ (decAccess (decInit 0 [] [] (List.range 60 ++
        wire [Record.copy 60 59 (some 1), Record.copy 3 2 none]))).1,
      0 ≤ idx ∧ idx < (windowSize : Int)) ∧
    (∀ idx ∈ (decAccess (decInit 0 [] [] (List.range 60 ++
        wire [Record.copy 60 59 (some 1), Record.copy 3 2 none]))).2,
      0 ≤ idx ∧ idx < (windowSize : Int)) ∧
    (∀ o l lit, Record.copy o l lit ∈ [Record.copy 60 59 (some 1), Record.copy 3 2 none] →
      ∀ i : Nat, i < l →
      (0 ≤ (windowSize : Int) - o + i ∧ (windowSize : Int) - o + i < windowSize) ∧
      (0 ≤ (windowSize : Int) - (l + 1) + i ∧
        (windowSize : Int) - (l + 1) + i < windowSize)) :=
  decoder_subscripts_in_bounds 0 [] [] (List.range 60)
    [Record.copy 60 59 (some 1), Record.copy 3 2 none] 0 _
    (by simp [windowSize])
    (by
      intro r hr
      simp only [List.mem_cons, List.mem_singleton, List.not_mem_nil, or_false] at hr
      rcases hr with rfl | rfl
      · exact ⟨by decide, by decide, by decide⟩
      · exact ⟨by decide, by decide, by decide⟩)
    (by
      intro r hr
      simp only [List.dropLast, List.mem_singleton] at hr
      subst hr
      simp [Record.hasLiteral])
    rfl




/-! ## Match records as back-references (C15, C17) -/

theorem isMatch_unique (w : List Nat) (o1 l1 o2 l2 : Nat) (h1 : isMatch w o1 l1)
    (h2 : isMatch w o2 l2) : o1 = o2 ∧ l1 = l2 := by
  obtain ⟨_, h1⟩ := h1
  obtain ⟨_, h2⟩ := h2
  rcases h1 with h1 | ⟨c1, h1⟩ <;> rcases h2 with h2 | ⟨c2, h2⟩ <;> rw [h1] at h2 <;>
    simp at h2 <;> omega

theorem not_isMatch_literal (w : List Nat) (o l : Nat) (h1 : isLiteral w) :
    ¬ isMatch w o l := by
  obtain ⟨b, rfl⟩ := h1
  rintro ⟨h2, h3 | ⟨c, h3⟩⟩
  · simp at h3; omega
  · simp at h3

/-- C17. Every Match record the encoder writes, in any pass on any input, has
`length <= offset` (and `offset <= windowSize`): `findMatch` only returns positions `p`
with `p + strLen <= windowSize`, and the offset written is `windowSize - p`, so the span
copied lies inside the window and does not reach into the lookahead. -/
theorem match_offset_at_least_length (x : List Nat) (c0 : Nat) (lb0 : List Nat) (n : Nat)
    (w : List Nat) (off len : Nat)
    (hw : w ∈ encTrace n (encInit c0 lb0 x)) (hm : isMatch w off len) :
    (len ≤ off ∧ off ≤ windowSize) ∧
    ∀ (window str : List Nat) (strLen p : Nat),
      findMatch window str strLen = (p : Int) → p + strLen ≤ windowSize := by
  constructor
  · rcases encTrace_valid n _ w hw with h | h | ⟨o, l, h1, _, h3, _, _, h6⟩
    · rw [h] at hm
      obtain ⟨_, hm | ⟨c, hm⟩⟩ := hm <;> simp at hm
    · exact absurd hm (not_isMatch_literal w off len h)
    · obtain ⟨e1, e2⟩ := isMatch_unique w off len o l hm h1
      subst e1 e2
      exact ⟨h6, h3⟩
  · intro window str strLen p h
    exact ((findMatch_eq_pos_iff window str strLen p).1 h).1.1

theorem match_offset_at_least_length_witness :
    (40 ≤ 60 ∧ 60 ≤ windowSize) ∧
    ∀ (window str : List Nat) (strLen p : Nat),
      findMatch window str strLen = (p : Int) → p + strLen ≤ windowSize :=
  match_offset_at_least_length (List.replicate 101 3) 0 (List.replicate 40 0) 1
    [60, 40, 3] 60 40 (by decide) ⟨by decide, Or.inr ⟨3, rfl⟩⟩

/-- C15. On an input `x` of at least `windowSize + bufferSize` bytes, let a pass of the
encoder loop (the one after any `n` passes) write a Match record with offset `off` and
length `len`, and let `p` be the number of input bytes the header and the chunks written
before stand for. Then the span lies in the input (`off <= p`, `p + len <= x.length`),
`x[p - off + k] = x[p + k]` for every `k < len`, and the trailing literal of the record,
when it has one, is `x[p + len]`, a byte of the input. -/
theorem match_is_back_reference (x : List Nat) (c0 : Nat) (lb0 : List Nat)
    (n : Nat) (s : EncState) (off len : Nat)
    (hx : windowSize + bufferSize ≤ x.length) (hlb : lb0.length = bufferSize)
    (hs : encIter n (encInit c0 lb0 x) = .more s)
    (hm : isMatch (encWritten s) off len) :
    off ≤ windowSize + coveredAll (encTrace n (encInit c0 lb0 x)) ∧
    windowSize + coveredAll (encTrace n (encInit c0 lb0 x)) + len ≤ x.length ∧
    (∀ k, k < len →
      x.getD (windowSize + coveredAll (encTrace n (encInit c0 lb0 x)) - off + k) 0 =
        x.getD (windowSize + coveredAll (encTrace n (encInit c0 lb0 x)) + k) 0) ∧
    (∀ c, encWritten s = [off, len, c] →
      windowSize + coveredAll (encTrace n (encInit c0 lb0 x)) + len < x.length ∧
      c = x.getD (windowSize + coveredAll (encTrace n (encInit c0 lb0 x)) + len) 0) := by
  have hx1 : arraySize ≤ x.length := by unfold arraySize; omega
  rcases encIter_good x c0 lb0 n s hx1 hlb hs with hg | ⟨hl, he⟩
  · generalize coveredAll (encTrace n (encInit c0 lb0 x)) = p at hg ⊢
    rcases encStep_good x p s hg with ⟨_, c2, _⟩ | ⟨s2, _, c2, _⟩ |
      ⟨o, l, b1, b2, b3, b4, b5, alt⟩
    · rw [c2] at hm
      obtain ⟨_, hm | ⟨c, hm⟩⟩ := hm <;> simp at hm
    · exact absurd hm (not_isMatch_literal _ off len ⟨_, c2⟩)
    · have ho : o ≠ 255 := by unfold windowSize at b4; omega
      have hm2 : isMatch (encWritten s) o l := by
        rcases alt with ⟨s2, _, c2, _⟩ | ⟨s2, _, c2, _⟩ | ⟨s2, _, c2, _⟩
        · exact ⟨ho, Or.inr ⟨_, c2⟩⟩
        · exact ⟨ho, Or.inl c2⟩
        · exact ⟨ho, Or.inl c2⟩
      obtain ⟨e1, e2⟩ := isMatch_unique _ off len o l hm hm2
      subst e1 e2
      have hbr : ∀ k, k < len → x.getD (windowSize + p - off + k) 0 =
          x.getD (windowSize + p + k) 0 := by
        intro k hk
        have := b5 k hk
        rw [Nat.add_comm windowSize p]
        exact this
      rcases alt with ⟨s2, _, c2, c3, _⟩ | ⟨s2, _, c2, c3⟩ | ⟨s2, _, c2, c3, _⟩
      · refine ⟨by omega, by omega, hbr, ?_⟩
        intro c hc
        rw [c2] at hc
        simp only [List.cons.injEq, and_true, true_and] at hc
        refine ⟨by omega, ?_⟩
        rw [← hc, Nat.add_comm windowSize p]
      · refine ⟨by omega, by omega, hbr, ?_⟩
        intro c hc
        rw [c2] at hc
        simp at hc
      · refine ⟨by omega, by omega, hbr, ?_⟩
        intro c hc
        rw [c2] at hc
        simp at hc
  · obtain ⟨s2, c1, _, _, c4, _⟩ := encStep_stuck s hl he
    have hw : encWritten s = [255, (loadLookahead s.array).getD 0 0] := by
      apply encWritten_of_output
      rw [c1]; exact c4
    exact absurd hm (not_isMatch_literal _ off len ⟨_, hw⟩)

theorem match_is_back_reference_witness :
    60 ≤ windowSize + coveredAll (encTrace 0 (encInit 0 (List.replicate 40 0)
      (List.replicate 101 3))) ∧
    windowSize + coveredAll (encTrace 0 (encInit 0 (List.replicate 40 0)
      (List.replicate 101 3))) + 40 ≤ (List.replicate 101 3).length ∧
    (∀ k, k < 40 →
      (List.replicate 101 3).getD (windowSize + coveredAll (encTrace 0 (encInit 0
        (List.replicate 40 0) (List.replicate 101 3))) - 60 + k) 0 =
        (List.replicate 101 3).getD (windowSize + coveredAll (encTrace 0 (encInit 0
          (List.replicate 40 0) (List.replicate 101 3))) + k) 0) ∧
    (∀ c, encWritten (encInit 0 (List.replicate 40 0) (List.replicate 101 3)) = [60, 40, c] →
      windowSize + coveredAll (encTrace 0 (encInit 0 (List.replicate 40 0)
        (List.replicate 101 3))) + 40 < (List.replicate 101 3).length ∧
      c = (List.replicate 101 3).getD (windowSize + coveredAll (encTrace 0 (encInit 0
        (List.replicate 40 0) (List.replicate 101 3))) + 40) 0) :=
  match_is_back_reference (List.replicate 101 3) 0 (List.replicate 40 0) 0
    (encInit 0 (List.replicate 40 0) (List.replicate 101 3)) 60 40
    (by simp [windowSize, bufferSize]) (by simp [bufferSize]) rfl
    ⟨by decide, Or.inr ⟨3, by decide⟩⟩




/-! ## Runs of the encoder that leave the loop (C16, C19) -/

theorem iter_done_split {σ : Type} (step : σ → Step σ) (n : Nat) (s0 sf : σ)
    (h : iter step n s0 = .done sf) :
    ∃ k s, k < n ∧ iter step k s0 = .more s ∧ step s = .done sf := by
  induction n generalizing s0 with
  | zero => simp [iter] at h
  | succ n ih =>
    rw [iter_succ] at h
    cases hs : step s0 with
    | done s1 =>
      rw [hs] at h
      simp only [Step.done.injEq] at h
      subst h
      exact ⟨0, s0, by omega, rfl, hs⟩
    | more s1 =>
      rw [hs] at h
      obtain ⟨k, s, a, b, c⟩ := ih s1 h
      exact ⟨k + 1, s, by omega, by rw [iter_succ, hs]; exact b, c⟩

theorem compress_done (x : List Nat) (c0 : Nat) (lb0 : List Nat) (fuel : Nat)
    (out : List Nat) (hx : arraySize ≤ x.length)
    (hc : compress fuel c0 lb0 x = some (1, out)) :
    ∃ k s sf, encIter k (encInit c0 lb0 x) = .more s ∧ encStep s = .done sf ∧
      sf.output = out := by
  unfold compress at hc
  have h0 : ¬ x.length = 0 := by unfold arraySize bufferSize at hx; omega
  have h1 : ¬ x.length < arraySize := by omega
  rw [if_neg h0, if_neg h1] at hc
  cases hi : encIter fuel (encInit c0 lb0 x) with
  | more s => rw [hi] at hc; simp at hc
  | done sf =>
    rw [hi] at hc
    simp only [Option.some.injEq, Prod.mk.injEq, true_and] at hc
    obtain ⟨k, s, _, b, c⟩ := iter_done_split encStep fuel _ sf hi
    exact ⟨k, s, sf, b, c, hc⟩

theorem covered_pair (off len : Nat) (h : off ≠ 255) : covered [off, len] = len := by
  unfold covered
  split <;> simp_all

theorem covered_triple (off len c : Nat) : covered [off, len, c] = len + 1 := by
  unfold covered
  split <;> simp_all

theorem chunk_length_le (w : List Nat)
    (h : w = [] ∨ isLiteral w ∨ ∃ off len, isMatch w off len ∧
      1 ≤ off ∧ off ≤ windowSize ∧ 1 ≤ len ∧ len ≤ bufferSize ∧ len ≤ off) :
    w.length ≤ 2 * covered w := by
  rcases h with h | ⟨b, h⟩ | ⟨off, len, ⟨h1, h2 | ⟨c, h2⟩⟩, _, _, h5, _⟩
  · rw [h]; simp
  · rw [h]; simp [covered]
  · rw [h2, covered_pair off len h1]; simp; omega
  · rw [h2, covered_triple]; simp; omega

theorem flatten_length_le (ws : List (List Nat))
    (h : ∀ w ∈ ws, w.length ≤ 2 * covered w) :
    ws.flatten.length ≤ 2 * coveredAll ws := by
  induction ws with
  | nil => simp [coveredAll]
  | cons w ws ih =>
    have h1 := h w (List.mem_cons_self _ _)
    have h2 := ih (fun v hv => h v (List.mem_cons_of_mem _ hv))
    simp only [List.flatten_cons, List.length_append, coveredAll, List.map_cons,
      List.sum_cons] at h2 ⊢
    omega

/-- C19. When `compress` returns on an input `x` of at least `windowSize + bufferSize`
bytes, its output has at most `windowSize + 2 * (x.length - windowSize)`, that is
`2 * x.length - windowSize`, bytes: every chunk written has at most twice as many bytes as
the input bytes it stands for, and the chunks stand for the `x.length - windowSize` bytes
after the header. -/
theorem compress_output_length_le (x : List Nat) (c0 : Nat) (lb0 : List Nat) (fuel : Nat)
    (out : List Nat)
    (hx : windowSize + bufferSize ≤ x.length) (hlb : lb0.length = bufferSize)
    (hc : compress fuel c0 lb0 x = some (1, out)) :
    out.length ≤ windowSize + 2 * (x.length - windowSize) ∧
    out.length ≤ 2 * x.length - windowSize := by
  have hx1 : arraySize ≤ x.length := by unfold arraySize; omega
  obtain ⟨k, s, sf, a, b, c⟩ := compress_done x c0 lb0 fuel out hx1 hc
  have ht := encTrace_succ k _ s a
  have hout := encIter_output (k + 1) (encInit c0 lb0 x)
  have hk1 : encIter (k + 1) (encInit c0 lb0 x) = .done sf := by
    unfold encIter at a ⊢
    rw [iter_more_add encStep k 1 _ _ a, iter_succ, b]
  rw [hk1, encInit_output c0 lb0 x hx1] at hout
  simp only [Step.state] at hout
  have hv : ∀ w ∈ encTrace (k + 1) (encInit c0 lb0 x), w.length ≤ 2 * covered w :=
    fun w hw => chunk_length_le w (encTrace_valid _ _ w hw)
  have hfl := flatten_length_le _ hv
  have hcov : coveredAll (encTrace (k + 1) (encInit c0 lb0 x)) + windowSize = x.length := by
    rw [ht, coveredAll_append_singleton]
    rcases encIter_good x c0 lb0 k s hx1 hlb a with hg | ⟨hl, he⟩
    · generalize coveredAll (encTrace k (encInit c0 lb0 x)) = p at hg ⊢
      rcases encStep_good x p s hg with ⟨_, c2, c3⟩ | ⟨s2, c1, _⟩ |
        ⟨o, l, _, _, _, b4, _, ⟨s2, c1, _⟩ | ⟨s2, _, c2, c3⟩ | ⟨s2, c1, _⟩⟩
      · rw [c2]; simp [covered]; omega
      · rw [b] at c1; simp at c1
      · rw [b] at c1; simp at c1
      · rw [c2, covered_pair o l (by unfold windowSize at b4; omega)]; omega
      · rw [b] at c1; simp at c1
    · obtain ⟨s2, c1, _⟩ := encStep_stuck s hl he
      rw [b] at c1; simp at c1
  have hlen : out.length = windowSize + (encTrace (k + 1) (encInit c0 lb0 x)).flatten.length := by
    rw [← c, hout]
    simp only [List.length_append, List.length_take]
    omega
  omega

theorem compress_output_length_le_witness :
    (List.replicate 60 3 ++ [60, 40, 3]).length ≤
      windowSize + 2 * ((List.replicate 101 3).length - windowSize) ∧
    (List.replicate 60 3 ++ [60, 40, 3]).length ≤
      2 * (List.replicate 101 3).length - windowSize :=
  compress_output_length_le (List.replicate 101 3) 0 (List.replicate 40 0) 2
    (List.replicate 60 3 ++ [60, 40, 3])
    (by simp [windowSize, bufferSize]) (by simp [bufferSize]) (by decide)




/-! ## The conditional round trip (C16) -/

theorem take_succ_getD (x : List Nat) (q : Nat) (h : q < x.length) :
    x.take q ++ [x.getD q 0] = x.take (q + 1) := by
  rw [List.take_succ, List.getD_eq_getElem?_getD, List.getElem?_eq_getElem h]
  rfl

/-- A back-reference inside `x`: the bytes copied from the output so far are the next
bytes of `x`. -/
theorem copied_take (x : List Nat) (q off len : Nat) (h1 : len ≤ off) (h2 : off ≤ q)
    (h3 : q + len ≤ x.length)
    (h4 : ∀ k, k < len → x.getD (q - off + k) 0 = x.getD (q + k) 0) :
    x.take q ++ copied (x.take q) off len = x.take (q + len) := by
  rw [List.take_add]
  congr 1
  unfold copied
  apply List.ext_getElem?
  intro k
  simp only [List.getElem?_take, List.getElem?_drop, List.length_take]
  have hq : min q x.length = q := by omega
  rw [hq]
  by_cases hk : k < len
  · have a1 : q - off + k < q := by omega
    have a2 : q - off + k < x.length := by omega
    have a3 : q + k < x.length := by omega
    have := h4 k hk
    simp only [List.getD_eq_getElem?_getD, List.getElem?_eq_getElem a2,
      List.getElem?_eq_getElem a3, Option.getD_some] at this
    rw [if_pos hk, if_pos hk, if_pos a1, List.getElem?_eq_getElem a2,
      List.getElem?_eq_getElem a3, this]
  · rw [if_neg hk, if_neg hk]

/-- After `n` passes that did not leave the loop, either the output is the header followed
by records that all have their literal and expand to the part of `x` read so far, or the
encoder is past its exit test. -/
theorem encIter_records (x : List Nat) (c0 : Nat) (lb0 : List Nat) (n : Nat) (s : EncState)
    (hx : arraySize ≤ x.length) (hlb : lb0.length = bufferSize)
    (h : encIter n (encInit c0 lb0 x) = .more s) :
    (∃ p rs, Good x p s ∧ (∀ r ∈ rs, r.hasLiteral ∧ r.inRange) ∧
      s.output = x.take windowSize ++ wire rs ∧
      referenceExpand (x.take windowSize) rs = x.take (p + windowSize)) ∨
    (s.last = true ∧ bufferSize < s.endOffset) := by
  induction n generalizing s with
  | zero =>
    simp only [encIter, iter, Step.more.injEq] at h
    subst h
    left
    refine ⟨0, [], encInit_good x c0 lb0 hx hlb, by simp, ?_, ?_⟩
    · simp [wire, encInit_output c0 lb0 x hx]
    · simp [referenceExpand]
  | succ n ih =>
    obtain ⟨s1, a, b⟩ := iter_succ_more encStep n _ s h
    rcases ih s1 a with ⟨p, rs, hg, hr, ho, he⟩ | ⟨hl, he⟩
    · have hw := (encWritten_cases s1).1
      rw [b] at hw
      simp only [Step.state] at hw
      rcases encStep_good x p s1 hg with ⟨c1, _⟩ | ⟨s2, c1, c2, c3, c4⟩ |
        ⟨off, len, b1, b2, b3, b4, b5, ⟨s2, c1, c2, c3, c4⟩ | ⟨s2, c1, _⟩ |
          ⟨s2, c1, _, _, c4, c5⟩⟩
      · rw [b] at c1; simp at c1
      · rw [b] at c1
        simp only [Step.more.injEq] at c1
        subst c1
        left
        refine ⟨p + 1, rs ++ [Record.literal (x.getD (p + windowSize) 0)], c4, ?_, ?_, ?_⟩
        · intro r hr2
          rcases List.mem_append.1 hr2 with h1 | h1
          · exact hr r h1
          · rw [List.mem_singleton.1 h1]; exact ⟨trivial, trivial⟩
        · rw [hw, c2, ho, wire_append]
          simp [Record.bytes]
        · rw [referenceExpand_append, he]
          simp only [expandRecord]
          rw [take_succ_getD x _ c3]
          congr 1
      · rw [b] at c1
        simp only [Step.more.injEq] at c1
        subst c1
        left
        refine ⟨p + (len + 1),
          rs ++ [Record.copy off len (some (x.getD (p + windowSize + len) 0))], c4,
          ?_, ?_, ?_⟩
        · intro r hr2
          rcases List.mem_append.1 hr2 with h1 | h1
          · exact hr r h1
          · rw [List.mem_singleton.1 h1]
            exact ⟨by simp [Record.hasLiteral],
              b3, b4, by unfold bufferSize at b2; unfold windowSize; omega⟩
        · rw [hw, c2, ho, wire_append]
          simp [Record.bytes]
        · rw [referenceExpand_append, he]
          simp only [expandRecord, Option.toList]
          rw [copied_take x (p + windowSize) off len b3 (by omega) (by omega) b5,
            take_succ_getD x _ c3]
          congr 1; omega
      · rw [b] at c1; simp at c1
      · rw [b] at c1
        simp only [Step.more.injEq] at c1
        subst c1
        right
        exact ⟨c4, c5⟩
    · obtain ⟨s2, c1, c2, c3, _, _⟩ := encStep_stuck s1 hl he
      rw [b] at c1
      simp only [Step.more.injEq] at c1
      subst c1
      right
      exact ⟨c2, c3⟩

/-- When `compress` returns, `decompress` turns its output back into the input. -/
theorem roundtrip_of_done (x : List Nat) (c0 : Nat) (lb0 : List Nat) (fuel : Nat)
    (out : List Nat) (c1 : Nat) (w0 wb0 : List Nat)
    (hx : arraySize ≤ x.length) (hlb : lb0.length = bufferSize)
    (hw0 : w0.length = windowSize) (hwb : wb0.length = windowSize)
    (hc : compress fuel c0 lb0 x = some (1, out)) :
    decompress c1 w0 wb0 out = some (1, x) := by
  obtain ⟨k, s, sf, a, b, c⟩ := compress_done x c0 lb0 fuel out hx hc
  have hh : (x.take windowSize).length = windowSize := by
    simp only [List.length_take]; unfold arraySize at hx; omega
  have hw := (encWritten_cases s).1
  rw [b] at hw
  simp only [Step.state] at hw
  rcases encIter_records x c0 lb0 k s hx hlb a with ⟨p, rs, hg, hr, ho, he⟩ | ⟨hl, he⟩
  · rcases encStep_good x p s hg with ⟨_, c2, c3⟩ | ⟨s2, c1, _⟩ |
      ⟨off, len, b1, b2, b3, b4, b5, ⟨s2, c1, _⟩ | ⟨s2, _, c2, c3⟩ | ⟨s2, c1, _⟩⟩
    · rw [c2, List.append_nil, ho] at hw
      rw [← c, hw]
      rw [decompress_records c1 w0 wb0 _ rs hh hw0 hwb (fun r h => (hr r h).2)
        (fun r h => (hr r (List.mem_of_mem_dropLast h)).1), he]
      rw [List.take_of_length_le (by omega)]
    · rw [b] at c1; simp at c1
    · rw [b] at c1; simp at c1
    · have hwire : out = x.take windowSize ++ wire (rs ++ [Record.copy off len none]) := by
        rw [← c, hw, c2, ho, wire_append]
        simp [Record.bytes]
      rw [hwire, decompress_records c1 w0 wb0 _ _ hh hw0 hwb ?_ ?_, referenceExpand_append, he]
      · simp only [expandRecord, Option.toList, List.append_nil]
        rw [copied_take x (p + windowSize) off len b3 (by omega) (by omega) b5]
        rw [List.take_of_length_le (by omega)]
      · intro r hr2
        rcases List.mem_append.1 hr2 with h1 | h1
        · exact (hr r h1).2
        · rw [List.mem_singleton.1 h1]
          exact ⟨b3, b4, by unfold bufferSize at b2; unfold windowSize; omega⟩
      · intro r hr2
        rw [List.dropLast_concat] at hr2
        exact (hr r hr2).1
    · rw [b] at c1; simp at c1
  · obtain ⟨s2, c1, _⟩ := encStep_stuck s hl he
    rw [b] at c1; simp at c1

/-- C16. For every input `x` of at least `windowSize + bufferSize` bytes on which the loop
of `compress` is left (so that `compress` returns 1 with an output), `decompress` applied to
that output returns 1 and writes exactly `x`. -/
theorem conditional_roundtrip (x : List Nat) (c0 : Nat) (lb0 : List Nat) (fuel : Nat)
    (out : List Nat) (c1 : Nat) (w0 wb0 : List Nat)
    (hx : windowSize + bufferSize ≤ x.length) (hlb : lb0.length = bufferSize)
    (hw0 : w0.length = windowSize) (hwb : wb0.length = windowSize)
    (hc : compress fuel c0 lb0 x = some (1, out)) :
    decompress c1 w0 wb0 out = some (1, x) :=
  roundtrip_of_done x c0 lb0 fuel out c1 w0 wb0 (by unfold arraySize; omega) hlb hw0 hwb hc

theorem conditional_roundtrip_witness :
    decompress 0 (List.replicate 60 0) (List.replicate 60 0)
      (List.replicate 60 3 ++ [60, 40, 3]) = some (1, List.replicate 101 3) :=
  conditional_roundtrip (List.replicate 101 3) 0 (List.replicate 40 0) 2
    (List.replicate 60 3 ++ [60, 40, 3]) 0 (List.replicate 60 0) (List.replicate 60 0)
    (by simp [windowSize, bufferSize]) (by simp [bufferSize]) (by simp [windowSize])
    (by simp [windowSize]) (by decide)




/-! ## The pass of the encoder determined by the input (C12) -/

theorem occursAt_congr (w w1 str str1 : List Nat) (n q : Nat)
    (hw : ∀ k, k < windowSize → w.getD k 0 = w1.getD k 0)
    (hs : ∀ k, k < n → str.getD k 0 = str1.getD k 0) :
    occursAt w str n q ↔ occursAt w1 str1 n q := by
  unfold occursAt
  constructor
  · rintro ⟨h1, h2⟩
    exact ⟨h1, fun k hk => by rw [← hw _ (by omega), ← hs _ hk]; exact h2 k hk⟩
  · rintro ⟨h1, h2⟩
    exact ⟨h1, fun k hk => by rw [hw _ (by omega), hs _ hk]; exact h2 k hk⟩

theorem searchLoop_congr (w w1 str str1 : List Nat) (n : Nat)
    (hw : ∀ k, k < windowSize → w.getD k 0 = w1.getD k 0)
    (hs : ∀ k, k < n → str.getD k 0 = str1.getD k 0) :
    searchLoop w str n = searchLoop w1 str1 n := by
  have hc : ∀ m q, m ≤ n → (occursAt w str m q ↔ occursAt w1 str1 m q) :=
    fun m q hm => occursAt_congr w w1 str str1 m q hw (fun k hk => hs k (by omega))
  rcases searchLoop_cases w str n with h | ⟨p, i, h⟩
  · have h1 : (searchLoop w str n).1 = -1 := by rw [h]
    rw [searchLoop_eq_neg_one_iff] at h1
    have h2 : (searchLoop w1 str1 n).1 = -1 := by
      rw [searchLoop_eq_neg_one_iff]
      intro m hm1 hm2 q hq
      exact h1 m hm1 hm2 q ((hc m q hm2).2 hq)
    rcases searchLoop_cases w1 str1 n with h3 | ⟨p, i, h3⟩
    · rw [h, h3]
    · rw [h3] at h2
      simp at h2
  · rw [h]
    symm
    rw [searchLoop_eq_pos_iff] at h ⊢
    obtain ⟨a, b, c, d, e⟩ := h
    exact ⟨a, b, (hc i p b).1 c, fun q hq hq2 => d q hq ((hc i q b).2 hq2),
      fun m hm1 hm2 q hq => e m hm1 hm2 q ((hc m q hm2).2 hq)⟩

theorem search_good (x : List Nat) (p : Nat) (s : EncState) (hg : Good x p s) :
    searchLoop (loadWindow s.array) (loadLookahead s.array) (bufferSize - s.endOffset) =
      inputSearch x p := by
  obtain ⟨g1, g2, g3, g4, g5, g6, g7, g8⟩ := hg
  have hA : arraySize = windowSize + bufferSize := by unfold arraySize; omega
  have hsize : min bufferSize (x.length - (p + windowSize)) = bufferSize - s.endOffset := by
    by_cases he : 0 < s.endOffset
    · have := g7 he; omega
    · omega
  unfold inputSearch
  rw [hsize]
  apply searchLoop_congr
  · intro k hk
    rw [getD_loadWindow _ _ hk, getD_slice _ _ _ _ hk, g5 _ (by omega)]
  · intro k hk
    rw [getD_loadLookahead _ _ (by omega), getD_slice _ _ _ _ (by omega), g5 _ (by omega)]
    congr 1; omega

/-- A pass from variables in step with `x` at `p`, when the search on `x` finds a match
shorter than `bufferSize`: a Match record with the next input byte as literal when input
is left after the span, and the `break` without literal when the span ends the input. -/
theorem encStep_of_inputSearch (x : List Nat) (p : Nat) (s : EncState) (q i : Nat)
    (hg : Good x p s) (hsearch : inputSearch x p = ((q : Int), i)) (hi : i ≠ bufferSize) :
    (p + windowSize + i < x.length →
      encWritten s = [windowSize - q, i, x.getD (p + windowSize + i) 0] ∧
      ∃ s1, encStep s = .more s1 ∧ Good x (p + (i + 1)) s1) ∧
    (p + windowSize + i = x.length →
      encWritten s = [windowSize - q, i] ∧ i + s.endOffset = bufferSize ∧
      ∃ sf, encStep s = .done sf ∧ sf.output = s.output ++ [windowSize - q, i]) := by
  have hs := search_good x p s hg
  rw [hsearch] at hs
  have hgood := encStep_good x p s hg
  obtain ⟨g1, g2, g3, g4, g5, g6, g7, g8⟩ := hg
  have hA : arraySize = windowSize + bufferSize := by unfold arraySize; omega
  obtain ⟨hi1, hi2, _⟩ := (searchLoop_eq_pos_iff _ _ _ _ _).1 hs
  rcases encStep_cases s with ⟨hE, _⟩ | ⟨_, h, _⟩ | ⟨pm, i1, hE, hs1, sub⟩
  · rw [encFetch_endOffset] at hE; omega
  · rw [hs] at h; simp at h
  · rw [hs] at hs1
    have e1 : q = pm := by
      have := congrArg Prod.fst hs1
      simp at this; omega
    have e2 : i = i1 := congrArg Prod.snd hs1
    subst e1 e2
    rcases sub with ⟨h40, _⟩ | ⟨h40, _⟩ | ⟨_, hne, h⟩ | ⟨_, hne, h⟩
    · exact absurd h40 hi
    · exact absurd h40 hi
    · have hw : encWritten s =
          [windowSize - q, i, (loadLookahead s.array).getD i 0] := by
        apply encWritten_of_output
        rw [h]; simp [Step.state]
      constructor
      · intro _
        rcases hgood with ⟨_, c2, _⟩ | ⟨s2, _, c2, _⟩ |
          ⟨off, len, _, _, _, _, _, ⟨s2, c1, c2, _, c4⟩ | ⟨s2, _, c2, _⟩ | ⟨s2, _, c2, _⟩⟩
        · rw [c2] at hw; simp at hw
        · rw [c2] at hw; simp at hw
        · have hw2 := hw
          rw [c2] at hw2
          simp only [List.cons.injEq, and_true] at hw2
          obtain ⟨e1, e2, e3⟩ := hw2
          subst e2
          exact ⟨by rw [c2, e1], s2, c1, c4⟩
        · rw [c2] at hw; simp at hw
        · rw [c2] at hw; simp at hw
      · intro hx; omega
    · constructor
      · intro hx
        have := g7 (by omega); omega
      · intro _
        refine ⟨?_, hne, _, h, by simp⟩
        apply encWritten_of_output
        rw [h]; simp [Step.state]

theorem endOfStreamInput_length :
    endOfStreamInput.length = windowSize + bufferSize + 1 := by decide

theorem inputSearch_endOfStream_first : inputSearch endOfStreamInput 0 = (((0 : Nat) : Int), 1) := by
  decide

theorem inputSearch_endOfStream_second :
    inputSearch endOfStreamInput 2 = (((0 : Nat) : Int), 39) := by
  decide




/-- C12. There is an input of exactly `windowSize + bufferSize + 1` bytes
(`endOfStreamInput`) on which, whatever the uninitialised variables hold, the encoder
leaves its loop in its second pass through the `break` of the match that exactly exhausts
the remaining input: the pass writes the Match record `[60, 39]` with
`39 + endOffset = bufferSize` and `39 < bufferSize`, and no trailing literal. `compress`
returns 1 with the output header, `[60, 1, 200]`, `[60, 39]`, and `decompress` turns that
output back into the input, final byte included. -/
theorem end_of_stream_scenario (c0 : Nat) (lb0 : List Nat) (c1 : Nat) (w0 wb0 : List Nat)
    (fuel : Nat)
    (hlb : lb0.length = bufferSize) (hw0 : w0.length = windowSize)
    (hwb : wb0.length = windowSize) (hfuel : 2 ≤ fuel) :
    ∃ x : List Nat, x = endOfStreamInput ∧ x.length = windowSize + bufferSize + 1 ∧
      ∃ s sf, encIter 1 (encInit c0 lb0 x) = .more s ∧ encStep s = .done sf ∧
        encWritten s = [60, 39] ∧ 39 < bufferSize ∧ 39 + s.endOffset = bufferSize ∧
        sf.output = List.range 60 ++ [60, 1, 200] ++ [60, 39] ∧
        compress fuel c0 lb0 x = some (1, sf.output) ∧
        decompress c1 w0 wb0 sf.output = some (1, x) ∧
        x.getLast? = some 40 := by
  refine ⟨endOfStreamInput, rfl, endOfStreamInput_length, ?_⟩
  have hx : arraySize ≤ endOfStreamInput.length := by
    rw [endOfStreamInput_length]; unfold arraySize; omega
  have g0 := encInit_good endOfStreamInput c0 lb0 hx hlb
  have p1 := (encStep_of_inputSearch endOfStreamInput 0 _ 0 1 g0
    inputSearch_endOfStream_first (by decide)).1
    (by rw [endOfStreamInput_length]; decide)
  obtain ⟨w1, s1, a1, a2⟩ := p1
  have p2 := (encStep_of_inputSearch endOfStreamInput 2 s1 0 39 a2
    inputSearch_endOfStream_second (by decide)).2
    (by rw [endOfStreamInput_length]; decide)
  obtain ⟨w2, e2, sf, b1, b2⟩ := p2
  have hout1 := (encWritten_cases (encInit c0 lb0 endOfStreamInput)).1
  rw [a1, w1, encInit_output c0 lb0 _ hx] at hout1
  simp only [Step.state] at hout1
  have hit1 : encIter 1 (encInit c0 lb0 endOfStreamInput) = .more s1 := by
    unfold encIter
    rw [iter_succ, a1]; rfl
  have hit2 : encIter 2 (encInit c0 lb0 endOfStreamInput) = .done sf := by
    unfold encIter
    rw [iter_succ, a1]
    simp only
    rw [iter_succ, b1]
  have hitf : encIter fuel (encInit c0 lb0 endOfStreamInput) = .done sf := by
    obtain ⟨m, rfl⟩ : ∃ m, fuel = 2 + m := ⟨fuel - 2, by omega⟩
    exact iter_done_add encStep 2 m _ _ hit2
  have hcomp : compress fuel c0 lb0 endOfStreamInput = some (1, sf.output) := by
    unfold compress
    have h0 : ¬ endOfStreamInput.length = 0 := by rw [endOfStreamInput_length]; decide
    have h1 : ¬ endOfStreamInput.length < arraySize := by omega
    rw [if_neg h0, if_neg h1, hitf]
  refine ⟨s1, sf, hit1, b1, w2, by decide, e2, ?_, hcomp, ?_, by decide⟩
  · rw [b2, hout1]
    decide
  · exact roundtrip_of_done endOfStreamInput c0 lb0 fuel sf.output c1 w0 wb0 hx hlb hw0 hwb
      hcomp

theorem end_of_stream_scenario_witness :
    ∃ x : List Nat, x = endOfStreamInput ∧ x.length = windowSize + bufferSize + 1 ∧
      ∃ s sf, encIter 1 (encInit 0 (List.replicate 40 0) x) = .more s ∧
        encStep s = .done sf ∧
        encWritten s = [60, 39] ∧ 39 < bufferSize ∧ 39 + s.endOffset = bufferSize ∧
        sf.output = List.range 60 ++ [60, 1, 200] ++ [60, 39] ∧
        compress 2 0 (List.replicate 40 0) x = some (1, sf.output) ∧
        decompress 0 (List.replicate 60 0) (List.replicate 60 0) sf.output = some (1, x) ∧
        x.getLast? = some 40 :=
  end_of_stream_scenario 0 (List.replicate 40 0) 0 (List.replicate 60 0)
    (List.replicate 60 0) 2 (by simp [bufferSize]) (by simp [windowSize])
    (by simp [windowSize]) (by decide)



/-! ## The decoder inside its arrays (C9, C11) -/

/-- C9 as the code has it. A stream made of the `windowSize`-byte header, any number of
complete records whose Matches have `length <= offset <= windowSize` and
`length < windowSize` (the range in which the decoder stays inside its arrays), and one
leftover byte is decoded like the stream without the leftover byte: `decompress` returns 1,
its only return value once the file is open, and writes the same output, the reference
expansion of the records; the leftover byte is read and dropped. -/
theorem decompress_ignores_leftover_byte (c0 : Nat) (w0 wb0 header : List Nat)
    (rs : List Record) (b : Nat)
    (hh : header.length = windowSize) (hw0 : w0.length = windowSize)
    (hwb : wb0.length = windowSize) (hr : ∀ r ∈ rs, r.complete ∧ r.inRange) :
    decompress c0 w0 wb0 (header ++ wire rs ++ [b]) = some (1, referenceExpand header rs) ∧
    decompress c0 w0 wb0 (header ++ wire rs) = some (1, referenceExpand header rs) := by
  constructor
  · obtain ⟨a1, a2, a3⟩ := decInit_inv c0 w0 wb0 header (wire rs ++ [b]) hh hw0 hwb
    obtain ⟨s1, b1, _, b3, b4⟩ := decIter_records rs _ [b] a1 hr a3
    have d : iter decStep (rs.length + 1) (decInit c0 w0 wb0 (header ++ (wire rs ++ [b]))) =
        .done { s1 with input := [] } := by
      rw [iter_more_add decStep _ 1 _ _ b1, iter_succ, decStep_short s1 (by rw [b4]; simp)]
    rw [List.append_assoc, decompress_of_iter _ _ _ _ _ _ d]
    simp only [b3, a2]
  · apply decompress_records c0 w0 wb0 header rs hh hw0 hwb (fun r h => (hr r h).2)
    intro r h
    have hc := (hr r (List.mem_of_mem_dropLast h)).1
    cases r with
    | literal v => trivial
    | copy o l lit => exact hc.2

theorem decompress_ignores_leftover_byte_witness :
    decompress 0 (List.replicate 60 0) (List.replicate 60 0)
        (List.range 60 ++ wire [Record.literal 9, Record.copy 3 2 (some 8)] ++ [7])
      = some (1, referenceExpand (List.range 60) [Record.literal 9, Record.copy 3 2 (some 8)]) ∧
    decompress 0 (List.replicate 60 0) (List.replicate 60 0)
        (List.range 60 ++ wire [Record.literal 9, Record.copy 3 2 (some 8)])
      = some (1, referenceExpand (List.range 60)
          [Record.literal 9, Record.copy 3 2 (some 8)]) :=
  decompress_ignores_leftover_byte 0 (List.replicate 60 0) (List.replicate 60 0)
    (List.range 60) [Record.literal 9, Record.copy 3 2 (some 8)] 7 (by simp [windowSize])
    (by simp [windowSize]) (by simp [windowSize])
    (by
      intro r hr
      simp only [List.mem_cons, List.mem_singleton, List.not_mem_nil, or_false] at hr
      rcases hr with rfl | rfl
      · exact ⟨trivial, trivial⟩
      · exact ⟨⟨by decide, by simp⟩, by decide, by decide, by decide⟩)

end LZ77
